import Mathlib

/-!
Verification of the hot-path verifier (`src/perf/verify_hot_path.rs`).

The Rust module scans textual LLVM IR.  We embed it shallowly:

* `String.contains`-style substring tests become `strContains`;
* the two fixed regular expressions (`find_function_body`'s
  `define[^@]*@[^\s]*NAME[^\(]*\([^\)]*\)[^\{]*\{(.*?)\n\}` and the
  two-pass `.hot_funcs` discovery patterns) are compiled by hand into
  backtracking matchers over `List Char` with leftmost-first semantics,
  which is the match semantics of the `regex` crate for these patterns;
* `\w` and `\s` are modelled at the ASCII level (the inputs the tool
  consumes are ASCII IR text);
* the `HashSet<String>` of discovered names is modelled as a
  duplicate-free list built by `insertDedup`; since `HashSet` iteration
  order is unspecified, the batch entry point takes the enumeration
  order of that set as an explicit parameter.
-/

namespace HotPath


/-- The `Severity` from the source: `Error` (hard fail) or `Warning`. -/
inductive Severity where
  | Error : Severity
  | Warning : Severity
deriving DecidableEq, Repr

/-- Boolean prefix test on char lists (Rust `str::starts_with` used via
`dropLit` below; also backs the substring test). -/
def listIsInfix (pat : List Char) : List Char → Bool
  | [] => pat.isEmpty
  | s@(_ :: rest) => pat.isPrefixOf s || listIsInfix pat rest

/-- Rust `str::contains(&str)`: substring containment. -/
def strContains (s pat : String) : Bool :=
  listIsInfix pat.data s.data

/-- The `HotPathCheck` trait: a name, a fixed severity, and a per-line
test returning an optional finding message. -/
structure HotPathCheck where
  name : String
  severity : Severity
  check_line : String → Option String

/-- The `AllocationCheck`: call instructions referencing allocator symbols. -/
def AllocationCheck : HotPathCheck where
  name := "allocation"
  severity := .Error
  check_line := fun line =>
    if strContains line "call" &&
        (strContains line "@malloc" || strContains line "@calloc" ||
         strContains line "@realloc" || strContains line "@alloc" ||
         strContains line "@__rust_alloc" || strContains line "@__rust_realloc") then
      some "contains allocation (real-time violation)"
    else none

/-- The `AtomicCheck`: atomic read-modify-write, compare-exchange, fence. -/
def AtomicCheck : HotPathCheck where
  name := "atomic"
  severity := .Error
  check_line := fun line =>
    if strContains line "atomicrmw" || strContains line "cmpxchg" ||
        strContains line " fence " then
      some "contains atomic operation (real-time violation)"
    else none

/-- The `IndirectionCheck`: `invoke` / `callbr` instructions. -/
def IndirectionCheck : HotPathCheck where
  name := "indirection"
  severity := .Error
  check_line := fun line =>
    if strContains line "invoke" || strContains line "callbr" then
      some "contains indirection"
    else none

/-- The `FunctionCallCheck`: non-intrinsic calls, with allocation call sites
skipped (they are handled by `AllocationCheck`). -/
def FunctionCallCheck : HotPathCheck where
  name := "function_call"
  severity := .Error
  check_line := fun line =>
    if strContains line "call" && !strContains line "@llvm." then
      if strContains line "@malloc" || strContains line "@calloc" ||
          strContains line "@realloc" || strContains line "@alloc" then
        none
      else
        some "contains function call (not inlined)"
    else none

/-- The `VolatileLoadCheck`. -/
def VolatileLoadCheck : HotPathCheck where
  name := "volatile_load"
  severity := .Warning
  check_line := fun line =>
    if strContains line "load" && strContains line "volatile" then
      some "volatile load (forces memory access, ~100-300 cycles)"
    else none

/-- The `VolatileStoreCheck`. -/
def VolatileStoreCheck : HotPathCheck where
  name := "volatile_store"
  severity := .Warning
  check_line := fun line =>
    if strContains line "store" && strContains line "volatile" then
      some "volatile store (forces write-through, ~100-300 cycles)"
    else none

/-- The `DivisionCheck`. -/
def DivisionCheck : HotPathCheck where
  name := "division"
  severity := .Warning
  check_line := fun line =>
    if strContains line " sdiv " || strContains line " udiv " ||
        strContains line " srem " || strContains line " urem " then
      some "division/modulo operation (10-40 cycles, not pipelined)"
    else none

/-- The `UnalignedAccessCheck`. -/
def UnalignedAccessCheck : HotPathCheck where
  name := "unaligned_access"
  severity := .Warning
  check_line := fun line =>
    if (strContains line "load" || strContains line "store") &&
        strContains line "align 1" then
      some "unaligned memory access (2-10x slower, blocks SIMD)"
    else none

/-- The `NonInboundsGepCheck`. -/
def NonInboundsGepCheck : HotPathCheck where
  name := "non_inbounds_gep"
  severity := .Warning
  check_line := fun line =>
    if strContains line "getelementptr" && !strContains line "inbounds" then
      some "non-inbounds GEP (adds bounds checks, prevents optimization)"
    else none

/-- The `HotPathVerifier` struct: an ordered list of registered checks. -/
structure HotPathVerifier where
  checks : List HotPathCheck

/-- The `HotPathVerifier::new`. -/
def HotPathVerifier.new : HotPathVerifier := ⟨[]⟩

/-- The `HotPathVerifier::with_check`: appends a check. -/
def HotPathVerifier.with_check (v : HotPathVerifier) (c : HotPathCheck) : HotPathVerifier :=
  ⟨v.checks ++ [c]⟩

/-- The `HotPathVerifier::with_default_checks`: the nine built-ins in their
fixed registration order. -/
def HotPathVerifier.with_default_checks (v : HotPathVerifier) : HotPathVerifier :=
  ((((((((v.with_check IndirectionCheck).with_check AllocationCheck).with_check
    FunctionCallCheck).with_check AtomicCheck).with_check VolatileLoadCheck).with_check
    VolatileStoreCheck).with_check DivisionCheck).with_check
    UnalignedAccessCheck).with_check NonInboundsGepCheck

/-- The `HotPathVerifier::default()` = `new().with_default_checks()`. -/
def defaultVerifier : HotPathVerifier :=
  HotPathVerifier.new.with_default_checks

/-- The default check list, in registration order. -/
def defaultChecks : List HotPathCheck :=
  defaultVerifier.checks

/-! Part: Line splitting (Rust `str::lines`) -/

/-- Split a char list at `'\n'`. -/
def splitNl : List Char → List (List Char)
  | [] => [[]]
  | c :: cs =>
    if c = '\n' then [] :: splitNl cs
    else
      match splitNl cs with
      | [] => [[c]]
      | g :: gs => (c :: g) :: gs

/-- Remove one trailing `'\r'` (Rust `lines` treats `\r\n` as a line end). -/
def stripCR (l : List Char) : List Char :=
  match l.reverse with
  | '\r' :: r => r.reverse
  | _ => l

/-- Rust `lines`: every piece but the last was `\n`-terminated, so its
trailing `'\r'` is stripped; a final empty piece (trailing newline) is
dropped; the untermimated final piece is kept verbatim. -/
def rustLinesAux : List (List Char) → List (List Char)
  | [] => []
  | [last] => if last.isEmpty then [] else [last]
  | p :: ps => stripCR p :: rustLinesAux ps

/-- Rust `str::lines` over a `String`. -/
def rustLines (s : String) : List String :=
  (rustLinesAux (splitNl s.data)).map String.mk

/-! Part: Symbol mangling -/

/-- Prepend a character to the first group of a split. -/
def consHead (c : Char) : List (List Char) → List (List Char)
  | [] => [[c]]
  | g :: gs => (c :: g) :: gs

/-- Rust `str::split("::")`: split at non-overlapping leftmost `"::"`
occurrences. -/
def splitColons : List Char → List (List Char)
  | [] => [[]]
  | [c] => consHead c [[]]
  | c :: d :: rest =>
    if c = ':' then
      if d = ':' then [] :: splitColons rest
      else consHead c (splitColons (d :: rest))
    else consHead c (splitColons (d :: rest))

/-- UTF-8 byte size of a char list (Rust `str::len` is byte length). -/
def utf8Len (l : List Char) : Nat :=
  (l.map Char.utf8Size).sum

/-- Concatenation of a list of strings (Rust `Vec::join("")`). -/
def concatAll : List String → String
  | [] => ""
  | s :: rest => s ++ concatAll rest

/-- The `mangle_rust_path`: `a::b::c` to `1a1b1c` — each segment's decimal
byte length followed by the segment, concatenated with no separators. -/
def mangle_rust_path (path : String) : String :=
  concatAll ((splitColons path.data).map
    (fun seg => toString (utf8Len seg) ++ String.mk seg))

/-! Part: Backtracking matchers for the fixed regex patterns

Leftmost-first (Perl-style) semantics, which is what the `regex` crate
implements for these patterns.  `[^X]*` is greedy with backtracking,
`.*?` is lazy and never crosses `'\n'`, literals are matched verbatim. -/

/-- Match a literal: `dropLit lit s = some t` iff `s = lit ++ t`. -/
def dropLit : List Char → List Char → Option (List Char)
  | [], s => some s
  | _ :: _, [] => none
  | c :: cs, x :: xs => if x = c then dropLit cs xs else none

/-- Backtracking driver for a greedy class star: `rev` is the reversed
already-consumed run; try the continuation at the longest consumption
first, giving characters back one at a time. -/
def tryStops (k : List Char → Option α) : List Char → List Char → Option α
  | [], s => k s
  | c :: rev, s =>
    match k s with
    | some r => some r
    | none => tryStops k rev (c :: s)

/-- Greedy `[class]*` followed by continuation `k`. -/
def starClass (ok : Char → Bool) (k : List Char → Option α) (s : List Char) : Option α :=
  tryStops k (s.takeWhile ok).reverse (s.dropWhile ok)

/-- Greedy `[class]+` followed by continuation `k`. -/
def plusClass (ok : Char → Bool) (k : List Char → Option α) : List Char → Option α
  | [] => none
  | c :: s => if ok c then starClass ok k s else none

/-- Backtracking driver that also reports the reversed remaining run to
the continuation (used for capturing groups). -/
def tryStopsCap (k : List Char → List Char → Option α) : List Char → List Char → Option α
  | [], s => k [] s
  | c :: rev, s =>
    match k (c :: rev) s with
    | some r => some r
    | none => tryStopsCap k rev (c :: s)

/-- Capturing greedy `([class]+)`: the continuation receives the
captured (consumed) characters and the rest of the input. -/
def plusClassCap (ok : Char → Bool) (k : List Char → List Char → Option α) :
    List Char → Option α
  | [] => none
  | c :: s =>
    if ok c then
      tryStopsCap (fun rev suf => k (c :: rev.reverse) suf)
        (s.takeWhile ok).reverse (s.dropWhile ok)
    else none

/-- Lazy `.*?` (no capture): try the continuation at the shortest
position first; `.` does not match `'\n'`. -/
def lazySkip (k : List Char → Option α) : List Char → Option α
  | [] => k []
  | c :: s =>
    match k (c :: s) with
    | some r => some r
    | none => if c = '\n' then none else lazySkip k s

/-- Lazy capturing `(.*?)`: as `lazySkip`, returning the consumed
characters alongside the continuation's result. -/
def lazyCapture (k : List Char → Option α) : List Char → List Char → Option (List Char × α)
  | acc, [] => (k []).map (fun r => (acc.reverse, r))
  | acc, c :: s =>
    match k (c :: s) with
    | some r => some (acc.reverse, r)
    | none => if c = '\n' then none else lazyCapture k (c :: acc) s

/-- ASCII fragment of the `regex` crate's `\s`. -/
def rustIsWs (c : Char) : Bool :=
  c = ' ' || c = '\t' || c = '\n' || c = '\r' || c = '\x0b' || c = '\x0c'

/-- ASCII fragment of the `regex` crate's `\w`. -/
def rustIsWordChar (c : Char) : Bool :=
  ('a' ≤ c && c ≤ 'z') || ('A' ≤ c && c ≤ 'Z') || ('0' ≤ c && c ≤ '9') || c = '_'

/-! Part: Function body extraction -/

/-- Attempt of `define[^@]*@[^\s]*NAME[^\(]*\([^\)]*\)[^\{]*\{(.*?)\n\}`
at the start of `s`; returns the capture group (the body). -/
def matchDefineAt (name : List Char) (s : List Char) : Option (List Char) :=
  (dropLit "define".data s).bind fun s1 =>
    starClass (fun c => !(c = '@')) (fun s2 =>
      (dropLit ['@'] s2).bind fun s3 =>
        starClass (fun c => !(rustIsWs c)) (fun s4 =>
          (dropLit name s4).bind fun s5 =>
            starClass (fun c => !(c = '(')) (fun s6 =>
              (dropLit ['('] s6).bind fun s7 =>
                starClass (fun c => !(c = ')')) (fun s8 =>
                  (dropLit [')'] s8).bind fun s9 =>
                    starClass (fun c => !(c = '{')) (fun s10 =>
                      (dropLit ['{'] s10).bind fun s11 =>
                        (lazyCapture (fun t => dropLit ['\n', '}'] t) [] s11).map
                          Prod.fst) s9) s7) s5) s3) s1

/-- Leftmost match of the `define` pattern: try each start position. -/
def findCapture (name : List Char) : List Char → Option (List Char)
  | [] => matchDefineAt name []
  | s@(_ :: rest) =>
    match matchDefineAt name s with
    | some cap => some cap
    | none => findCapture name rest

/-- The `find_function_body`: mangle namespaced names, search the IR for the
function's `define` block, return the captured body or a not-found error. -/
def find_function_body (ir func_name : String) : Except String String :=
  let search_name :=
    if strContains func_name "::" then mangle_rust_path func_name else func_name
  match findCapture search_name.data ir.data with
  | some cap => .ok (String.mk cap)
  | none => .error ("Function " ++ func_name ++ " not found in IR")

/-! Part: Verification -/

/-- Inner loop of `HotPathVerifier::verify`: run the registered checks
over one line in order, short-circuiting on an `Error` finding and
accumulating `Warning` findings. -/
def scanLine (func_name line : String) (warnings : List String) :
    List HotPathCheck → Except String (List String)
  | [] => .ok warnings
  | c :: cs =>
    match c.check_line line with
    | none => scanLine func_name line warnings cs
    | some violation =>
      match c.severity with
      | .Error => .error (func_name ++ ": " ++ violation)
      | .Warning => scanLine func_name line (warnings ++ [func_name ++ ": " ++ violation]) cs

/-- Outer loop of `HotPathVerifier::verify`: scan the body lines in order. -/
def scanLines (func_name : String) (checks : List HotPathCheck) :
    List String → List String → Except String (List String)
  | [], warnings => .ok warnings
  | l :: ls, warnings =>
    match scanLine func_name l warnings checks with
    | .error e => .error e
    | .ok w => scanLines func_name checks ls w

/-- The `HotPathVerifier::verify`: extract the body, then scan every line
with every registered check; `Error` findings abort immediately with
`"<name>: <violation>"`, `Warning` findings are accumulated and returned
on success. -/
def HotPathVerifier.verify (v : HotPathVerifier) (ir func_name : String) :
    Except String (List String) :=
  match find_function_body ir func_name with
  | .error e => .error e
  | .ok body => scanLines func_name v.checks (rustLines body) []

/-- The `verify_hot_function`: default checks, warnings discarded. -/
def verify_hot_function (ir func_name : String) : Except String Unit :=
  (defaultVerifier.verify ir func_name).map (fun _ => ())

/-! Part: Hot-function discovery -/

/-- Attempt of the first discovery pattern
`ptr\s+(@alloc_\w+).*section\s+"\.hot_funcs"` at the start of `s`;
returns the captured identifier and the rest of the input after the
match (the next search of `captures_iter` resumes there). -/
def pass1At (s : List Char) : Option (List Char × List Char) :=
  (dropLit "ptr".data s).bind fun s1 =>
    plusClass rustIsWs (fun s2 =>
      (dropLit "@alloc_".data s2).bind fun s3 =>
        plusClassCap rustIsWordChar (fun w s4 =>
          starClass (fun c => !(c = '\n')) (fun s5 =>
            (dropLit "section".data s5).bind fun s6 =>
              plusClass rustIsWs (fun s7 =>
                (dropLit "\".hot_funcs\"".data s7).bind fun s8 =>
                  some ("@alloc_".data ++ w, s8)) s6) s4) s3) s1

/-- Leftmost match of the first discovery pattern. -/
def findPass1 : List Char → Option (List Char × List Char)
  | [] => pass1At []
  | s@(_ :: rest) =>
    match pass1At s with
    | some capRest => some capRest
    | none => findPass1 rest

/-- The `captures_iter` over the first discovery pattern, with explicit
fuel so that the recursion is structural (each match strictly consumes
input by `findPass1_rest_lt`, so fuel `s.length + 1` never runs out;
`capturesIterFuel_irrel` below makes that precise). -/
def capturesIterFuel : Nat → List Char → List (List Char)
  | 0, _ => []
  | fuel + 1, s =>
    match findPass1 s with
    | none => []
    | some (cap, rest) => cap :: capturesIterFuel fuel rest

/-- The `captures_iter` over the first discovery pattern: collect the
captured identifiers of successive non-overlapping leftmost matches. -/
def capturesIter (s : List Char) : List (List Char) :=
  capturesIterFuel (s.length + 1) s

/-- Attempt of the second discovery pattern
`ID\s*=.*?c"([^"]+)\\00"` at the start of `s` (with `ID` the escaped
identifier captured by the first pass); returns the captured name. -/
def pass2At (id : List Char) (s : List Char) : Option (List Char) :=
  (dropLit id s).bind fun s1 =>
    starClass rustIsWs (fun s2 =>
      (dropLit ['='] s2).bind fun s3 =>
        lazySkip (fun s4 =>
          (dropLit ['c', '"'] s4).bind fun s5 =>
            plusClassCap (fun c => !(c = '"')) (fun nm s6 =>
              (dropLit ['\\', '0', '0', '"'] s6).bind fun _ =>
                some nm) s5) s3) s1

/-- Leftmost match of the second discovery pattern (`Regex::captures`
searches the whole text). -/
def findPass2 (id : List Char) : List Char → Option (List Char)
  | [] => pass2At id []
  | s@(_ :: rest) =>
    match pass2At id s with
    | some nm => some nm
    | none => findPass2 id rest

/-- The `HashSet::insert`, modelled on a duplicate-free list. -/
def insertDedup (acc : List String) (n : String) : List String :=
  if n ∈ acc then acc else acc ++ [n]

/-- The `find_hot_functions_from_ir`: two-pass discovery.  Pass 1 collects
`@alloc_…` identifiers referenced from `.hot_funcs` section entries;
pass 2 resolves each to the null-terminated string constant it points
at.  The result models the `HashSet<String>` as a duplicate-free list;
unresolvable identifiers are skipped and discovery never fails. -/
def find_hot_functions_from_ir (ir : String) : List String :=
  (capturesIter ir.data).foldl
    (fun acc id =>
      match findPass2 id ir.data with
      | some nm => insertDedup acc (String.mk nm)
      | none => acc) []

/-- Loop body of `verify_hot_path_functions`: verify each discovered
function in turn, aborting the batch on the first failure. -/
def verifyAll (v : HotPathVerifier) (ir : String) : List String → Except String Unit
  | [] => .ok ()
  | f :: fs =>
    match v.verify ir f with
    | .error e => .error e
    | .ok _ => verifyAll v ir fs

/-- The `verify_hot_path_functions`: batch entry point with default checks.
The Rust code iterates the discovered `HashSet<String>`, whose
iteration order is unspecified (randomized per process); `order` makes
that enumeration order explicit.  Theorems constrain `order` to be an
enumeration of `find_hot_functions_from_ir ir`. -/
def verify_hot_path_functions (ir : String) (order : List String) : Except String Unit :=
  verifyAll defaultVerifier ir order

/-! Part: Characterisations of the scan loop -/

/-- The first `Error`-severity finding among the checks, in registration
order, on one line (`Warning` findings do not stop the scan). -/
def lineFirstError : List HotPathCheck → String → Option String
  | [], _ => none
  | c :: cs, line =>
    match c.check_line line, c.severity with
    | some v, .Error => some v
    | _, _ => lineFirstError cs line

/-- The first `Error`-severity finding over the body lines in order. -/
def firstError (checks : List HotPathCheck) : List String → Option String
  | [] => none
  | l :: ls =>
    match lineFirstError checks l with
    | some v => some v
    | none => firstError checks ls

/-- The `Warning` messages produced on one line, in registration order. -/
def lineWarnings (func_name : String) (checks : List HotPathCheck) (line : String) :
    List String :=
  checks.filterMap (fun c =>
    match c.check_line line, c.severity with
    | some v, .Warning => some (func_name ++ ": " ++ v)
    | _, _ => none)

/-- All `Warning` messages over the body lines, in scan order. -/
def collectWarnings (func_name : String) (checks : List HotPathCheck) :
    List String → List String
  | [] => []
  | l :: ls => lineWarnings func_name checks l ++ collectWarnings func_name checks ls

/-- Whether some registered check fires with `Error` severity on a line. -/
def lineHasError (checks : List HotPathCheck) (line : String) : Bool :=
  checks.any (fun c => (c.check_line line).isSome && decide (c.severity = .Error))

/-- IR for the C1 witness: a body whose single line contains both an
atomic read-modify-write and a non-allocation, non-intrinsic call. -/
def irC1 : String :=
  "define i32 @test_func() \x7b  %1 = atomicrmw add ptr %p, i32 1 seq_cst  %2 = call i32 @other()  ret i32 0\n\x7d"

/-- Body extracted from `irC1`. -/
def bodyC1 : String :=
  "  %1 = atomicrmw add ptr %p, i32 1 seq_cst  %2 = call i32 @other()  ret i32 0"

/-- IR for the C2 witness: a well-formed `.hot_funcs` entry announces
`ghost`, but no `define` for `ghost` exists in the IR. -/
def irC2 : String :=
  "@alloc_ghost = private unnamed_addr constant [6 x i8] c\"ghost\\00\", align 1\n@H = internal constant <\x7b ptr @alloc_ghost \x7d>, section \".hot_funcs\", align 8\n"

/-- IR for the C3 counterexample: the body line is a call to `@malloc`
(the allocation trigger holds), but the line also contains the
substring `invoke`, so the earlier-registered `IndirectionCheck` wins. -/
def irC3cx : String :=
  "define i32 @test_func() \x7b  %1 = call ptr @malloc(i64 16) ; inside invoke block\n\x7d"

/-- IR for the C3 witness: a plain `call ptr @malloc` body line. -/
def irC3 : String :=
  "define i32 @test_func() \x7b  %1 = call ptr @malloc(i64 16)  ret i32 0\n\x7d"

/-- Join path segments with the `::` namespace delimiter (the shape of
the mangler's input). -/
def joinPath : List String → String
  | [] => ""
  | [s] => s
  | s :: rest => s ++ "::" ++ joinPath rest

/-- IR for C6: two hot functions, `foo` and `bar`, both of whose bodies
allocate.  Which one's error the batch reports depends on the
enumeration order of the discovered set — in Rust, the iteration order
of `HashSet<String>`, which is randomized per process. -/
def irC6 : String :=
  "@alloc_foo = private unnamed_addr constant [4 x i8] c\"foo\\00\", align 1\n@H1 = internal constant <\x7b ptr @alloc_foo \x7d>, section \".hot_funcs\", align 8\n@alloc_bar = private unnamed_addr constant [4 x i8] c\"bar\\00\", align 1\n@H2 = internal constant <\x7b ptr @alloc_bar \x7d>, section \".hot_funcs\", align 8\ndefine i32 @foo() \x7b  %1 = call ptr @malloc(i64 16)  ret i32 0\n\x7d\ndefine i32 @bar() \x7b  %1 = call ptr @malloc(i64 16)  ret i32 0\n\x7d\n"

/-- IR for the C7 counterexample/witness: the hot function `wf`
produces one `Warning` (a volatile load) and no `Error`. -/
def irC7 : String :=
  "@alloc_wf = private unnamed_addr constant [3 x i8] c\"wf\\00\", align 1\n@H = internal constant <\x7b ptr @alloc_wf \x7d>, section \".hot_funcs\", align 8\ndefine i32 @wf(ptr %p) \x7b  %1 = load volatile i32, ptr %p  ret i32 %1\n\x7d\n"

/-- No `Error`-severity check among `checks` fires on any of `lines`. -/
def NoError (checks : List HotPathCheck) (lines : List String) : Prop :=
  ∀ l ∈ lines, ∀ c ∈ checks, c.severity = .Error → c.check_line l = none

/-- The default checks with `AtomicCheck` and `FunctionCallCheck`
transposed. -/
def swappedChecks : List HotPathCheck :=
  [IndirectionCheck, AllocationCheck, AtomicCheck, FunctionCallCheck,
    VolatileLoadCheck, VolatileStoreCheck, DivisionCheck, UnalignedAccessCheck,
    NonInboundsGepCheck]

/-- IR for the C8 witness: one body line carrying both an atomic RMW
and a plain call. -/
def irC8 : String :=
  "define i32 @test_func() \x7b  %1 = atomicrmw add ptr %p, i32 1 seq_cst  %2 = call i32 @other()  ret i32 0\n\x7d"

/-- IR for the C9 witness: the repository's own intrinsic-call test. -/
def irC9 : String :=
  "define i32 @test_func(i32 %a, i32 %b) \x7b  %1 = call i32 @llvm.sadd.sat.i32(i32 %a, i32 %b)  ret i32 %1\n\x7d"

/-- IR for C10: a syntactically well-formed `.hot_funcs` section entry
whose pointer names `@myfn` (not of the `@alloc_…` shape), with a
well-formed null-terminated payload — it contributes nothing. -/
def irC10 : String :=
  "@myfn = private unnamed_addr constant [4 x i8] c\"foo\\00\", align 1\n@H = internal constant <\x7b ptr @myfn \x7d>, section \".hot_funcs\", align 8\n"

/-- IR for the C10 witness: the repository's single-entry discovery
test. -/
def irC10b : String :=
  "\n            @alloc_process = private unnamed_addr constant [8 x i8] c\"process\\00\", align 1\n            @HOT_FUNC = constant <\x7b ptr, [8 x i8] \x7d> <\x7b ptr @alloc_process, [8 x i8] c\"\\07\\00\\00\\00\\00\\00\\00\\00\" \x7d>, section \".hot_funcs\", align 8\n        "

/-! Part: C4: discovery on a canonical family of well-formed entries

`hotEntry w n` is a well-formed pair of IR declarations for one
annotated function: a string constant `@alloc_<w>` holding the
null-terminated name `n`, and a `.hot_funcs` section entry holding a
pointer to it (the shape the marking construct emits, cf. the
repository's own tests).  `mkHotIR` concatenates entries.  The claim's
"IR text containing exactly N well-formed entries" is formalised as
`mkHotIR` over N pairs. -/

/-- One well-formed `.hot_funcs` entry: the name constant and the
section entry referencing it. -/
def hotEntry (w n : List Char) : List Char :=
  "@alloc_".data ++ w ++ " = c\"".data ++ n ++ "\\00\"\nx = ptr @alloc_".data ++ w ++
    " section \".hot_funcs\"\n".data

/-- IR text consisting of well-formed `.hot_funcs` entries only. -/
def mkHotIR : List (List Char × List Char) → List Char
  | [] => []
  | (w, n) :: ps => hotEntry w n ++ mkHotIR ps

/-! Part: Structural lemmas about the matcher combinators

Every combinator hands its continuation a suffix of its input; these
lemmas make that explicit.  They justify termination of the discovery
iteration and characterise the shape of captured groups. -/

theorem dropLit_eq_append {lit s t : List Char} (h : dropLit lit s = some t) :
    s = lit ++ t := by
  induction lit generalizing s with
  | nil =>
    simp only [dropLit, Option.some.injEq] at h
    simp [h]
  | cons c cs ih =>
    cases s with
    | nil => simp [dropLit] at h
    | cons x xs =>
      simp only [dropLit] at h
      split at h
      · rename_i hx
        rw [hx, List.cons_append]
        exact congrArg _ (ih h)
      · cases h

theorem tryStops_suffix {α : Type} {k : List Char → Option α} {rev s : List Char} {r : α}
    (h : tryStops k rev s = some r) :
    ∃ u t, rev.reverse ++ s = u ++ t ∧ k t = some r := by
  induction rev generalizing s with
  | nil => exact ⟨[], s, by simp, by simpa [tryStops] using h⟩
  | cons c rev ih =>
    rw [tryStops] at h
    cases hk : k s with
    | some r2 =>
      rw [hk] at h
      cases h
      exact ⟨(c :: rev).reverse, s, rfl, hk⟩
    | none =>
      rw [hk] at h
      obtain ⟨u, t, heq, hkt⟩ := ih h
      refine ⟨u, t, ?_, hkt⟩
      calc (c :: rev).reverse ++ s = rev.reverse ++ (c :: s) := by simp
        _ = u ++ t := heq

theorem starClass_suffix {α : Type} {ok : Char → Bool} {k : List Char → Option α}
    {s : List Char} {r : α} (h : starClass ok k s = some r) :
    ∃ u t, s = u ++ t ∧ k t = some r := by
  unfold starClass at h
  obtain ⟨u, t, heq, hkt⟩ := tryStops_suffix h
  refine ⟨u, t, ?_, hkt⟩
  rw [List.reverse_reverse, List.takeWhile_append_dropWhile] at heq
  exact heq

theorem plusClass_suffix {α : Type} {ok : Char → Bool} {k : List Char → Option α}
    {s : List Char} {r : α} (h : plusClass ok k s = some r) :
    ∃ u t, s = u ++ t ∧ u ≠ [] ∧ k t = some r := by
  cases s with
  | nil => simp [plusClass] at h
  | cons c s =>
    rw [plusClass] at h
    split at h
    · obtain ⟨u, t, heq, hkt⟩ := starClass_suffix h
      exact ⟨c :: u, t, by simp [heq], by simp, hkt⟩
    · cases h

theorem tryStopsCap_suffix {α : Type} {k : List Char → List Char → Option α}
    {rev s : List Char} {r : α} (h : tryStopsCap k rev s = some r) :
    ∃ i, i ≤ rev.length ∧ k (rev.drop i) ((rev.take i).reverse ++ s) = some r := by
  induction rev generalizing s with
  | nil => exact ⟨0, by simp, by simpa [tryStopsCap] using h⟩
  | cons c rev ih =>
    rw [tryStopsCap] at h
    cases hk : k (c :: rev) s with
    | some r2 =>
      rw [hk] at h
      cases h
      exact ⟨0, by simp, by simpa using hk⟩
    | none =>
      rw [hk] at h
      obtain ⟨i, hi, hki⟩ := ih h
      refine ⟨i + 1, by simpa using Nat.succ_le_succ hi, ?_⟩
      rw [List.drop_succ_cons, List.take_succ_cons, List.reverse_cons, List.append_assoc]
      simpa using hki

theorem mem_takeWhile_ok {ok : Char → Bool} {l : List Char} {c : Char}
    (h : c ∈ l.takeWhile ok) : ok c = true :=
  List.mem_takeWhile_imp h

theorem plusClassCap_suffix {α : Type} {ok : Char → Bool}
    {k : List Char → List Char → Option α} {s : List Char} {r : α}
    (h : plusClassCap ok k s = some r) :
    ∃ w t, s = w ++ t ∧ w ≠ [] ∧ (∀ c ∈ w, ok c = true) ∧ k w t = some r := by
  cases s with
  | nil => simp [plusClassCap] at h
  | cons c s =>
    rw [plusClassCap] at h
    split at h
    · rename_i hc
      obtain ⟨i, hi, hki⟩ := tryStopsCap_suffix h
      refine ⟨c :: ((s.takeWhile ok).reverse.drop i).reverse,
        ((s.takeWhile ok).reverse.take i).reverse ++ s.dropWhile ok, ?_, by simp, ?_, hki⟩
      · have hsplit : (s.takeWhile ok).reverse.take i ++ (s.takeWhile ok).reverse.drop i
            = (s.takeWhile ok).reverse := List.take_append_drop i _
        have : ((s.takeWhile ok).reverse.drop i).reverse ++
            ((s.takeWhile ok).reverse.take i).reverse = s.takeWhile ok := by
          rw [← List.reverse_append, hsplit, List.reverse_reverse]
        simp only [List.cons_append, ← List.append_assoc, this,
          List.takeWhile_append_dropWhile]
      · intro x hx
        rcases List.mem_cons.mp hx with hx | hx
        · exact hx ▸ hc
        · have h1 : x ∈ (s.takeWhile ok).reverse.drop i := List.mem_reverse.mp hx
          have h2 : x ∈ (s.takeWhile ok).reverse := List.mem_of_mem_drop h1
          exact mem_takeWhile_ok (List.mem_reverse.mp h2)
    · cases h

theorem lazySkip_suffix {α : Type} {k : List Char → Option α} {s : List Char} {r : α}
    (h : lazySkip k s = some r) : ∃ u t, s = u ++ t ∧ k t = some r := by
  induction s with
  | nil => exact ⟨[], [], rfl, by simpa [lazySkip] using h⟩
  | cons c s ih =>
    rw [lazySkip] at h
    cases hk : k (c :: s) with
    | some r2 =>
      rw [hk] at h
      cases h
      exact ⟨[], c :: s, rfl, hk⟩
    | none =>
      rw [hk] at h
      by_cases hc : c = '\n'
      · rw [if_pos hc] at h
        cases h
      · rw [if_neg hc] at h
        obtain ⟨u, t, heq, hkt⟩ := ih h
        exact ⟨c :: u, t, by simp [heq], hkt⟩

/-- Every successful `pass1At` match decomposes the input around the
literal `".hot_funcs"` tail, and captures `@alloc_` followed by a
non-empty run of word characters. -/
theorem pass1At_some {s cap rest : List Char} (h : pass1At s = some (cap, rest)) :
    (∃ pre, s = pre ++ "\".hot_funcs\"".data ++ rest) ∧
    ∃ w, cap = "@alloc_".data ++ w ∧ w ≠ [] ∧ ∀ c ∈ w, rustIsWordChar c = true := by
  unfold pass1At at h
  cases h1 : dropLit "ptr".data s with
  | none => rw [h1] at h; cases h
  | some s1 =>
    rw [h1] at h
    simp only [Option.some_bind] at h
    obtain ⟨u2, s2, heq2, _, hk2⟩ := plusClass_suffix h
    cases h3 : dropLit "@alloc_".data s2 with
    | none => rw [h3] at hk2; cases hk2
    | some s3 =>
      rw [h3] at hk2
      simp only [Option.some_bind] at hk2
      obtain ⟨w, s4, heq4, hwne, hwok, hk4⟩ := plusClassCap_suffix hk2
      obtain ⟨u5, s5, heq5, hk5⟩ := starClass_suffix hk4
      cases h6 : dropLit "section".data s5 with
      | none => rw [h6] at hk5; cases hk5
      | some s6 =>
        rw [h6] at hk5
        simp only [Option.some_bind] at hk5
        obtain ⟨u7, s7, heq7, _, hk7⟩ := plusClass_suffix hk5
        cases h8 : dropLit "\".hot_funcs\"".data s7 with
        | none => rw [h8] at hk7; cases hk7
        | some s8 =>
          rw [h8] at hk7
          simp only [Option.some_bind] at hk7
          obtain ⟨hcap, hrest⟩ : cap = "@alloc_".data ++ w ∧ rest = s8 := by
            cases hk7
            exact ⟨rfl, rfl⟩
          subst hcap hrest
          refine ⟨⟨"ptr".data ++ u2 ++ "@alloc_".data ++ w ++ u5 ++ "section".data ++ u7, ?_⟩,
            w, rfl, hwne, hwok⟩
          have hs1 := dropLit_eq_append h1
          have hs3 := dropLit_eq_append h3
          have hs6 := dropLit_eq_append h6
          have hs8 := dropLit_eq_append h8
          rw [hs1, heq2, hs3, heq4, heq5, hs6, heq7, hs8]
          simp [List.append_assoc]

/-- A successful first-pass match strictly shrinks the input. -/
theorem pass1At_rest_lt {s cap rest : List Char} (h : pass1At s = some (cap, rest)) :
    rest.length < s.length := by
  obtain ⟨⟨pre, hpre⟩, -⟩ := pass1At_some h
  rw [hpre]
  simp [List.length_append]
  omega

theorem findPass1_rest_lt {s cap rest : List Char}
    (h : findPass1 s = some (cap, rest)) : rest.length < s.length := by
  induction s with
  | nil => exact pass1At_rest_lt (by simpa [findPass1] using h)
  | cons c s ih =>
    rw [findPass1] at h
    cases hp : pass1At (c :: s) with
    | some cr =>
      rw [hp] at h
      cases h
      exact pass1At_rest_lt hp
    | none =>
      rw [hp] at h
      exact Nat.lt_trans (ih h) (by simp)

/-- A successful leftmost first-pass match captures `@alloc_` plus a
non-empty run of word characters, and the input contains the literal
`.hot_funcs`. -/
theorem findPass1_some {s cap rest : List Char} (h : findPass1 s = some (cap, rest)) :
    (∃ a b, s = a ++ ".hot_funcs".data ++ b) ∧
    ∃ w, cap = "@alloc_".data ++ w ∧ w ≠ [] ∧ ∀ c ∈ w, rustIsWordChar c = true := by
  induction s with
  | nil =>
    obtain ⟨⟨pre, hpre⟩, hw⟩ := pass1At_some (by simpa [findPass1] using h)
    exact ⟨⟨pre ++ ['"'], ['"'] ++ rest, by simpa [List.append_assoc] using hpre⟩, hw⟩
  | cons c s ih =>
    rw [findPass1] at h
    cases hp : pass1At (c :: s) with
    | some cr =>
      rw [hp] at h
      cases h
      obtain ⟨⟨pre, hpre⟩, hw⟩ := pass1At_some hp
      exact ⟨⟨pre ++ ['"'], ['"'] ++ rest, by simpa [List.append_assoc] using hpre⟩, hw⟩
    | none =>
      rw [hp] at h
      obtain ⟨⟨a, b, hab⟩, hw⟩ := ih h
      exact ⟨⟨c :: a, b, by simp [hab]⟩, hw⟩

/-- The fuel bound in `capturesIter` is irrelevant: any fuel exceeding
the input length yields the same trace. -/
theorem capturesIterFuel_irrel (fuel fuel' : Nat) (s : List Char)
    (h : s.length < fuel) (h' : s.length < fuel') :
    capturesIterFuel fuel s = capturesIterFuel fuel' s := by
  induction fuel using Nat.strong_induction_on generalizing fuel' s with
  | _ fuel ih =>
    cases fuel with
    | zero => omega
    | succ f =>
      cases fuel' with
      | zero => omega
      | succ f' =>
        rw [capturesIterFuel, capturesIterFuel]
        cases hp : findPass1 s with
        | none => rfl
        | some cr =>
          obtain ⟨cap, rest⟩ := cr
          have hlt := findPass1_rest_lt hp
          exact congrArg (cap :: ·)
            (ih f (Nat.lt_succ_self f) f' rest (by omega) (by omega))

theorem scanLine_error {checks : List HotPathCheck} {func_name line v : String}
    (warnings : List String) (h : lineFirstError checks line = some v) :
    scanLine func_name line warnings checks = .error (func_name ++ ": " ++ v) := by
  induction checks generalizing warnings with
  | nil => simp [lineFirstError] at h
  | cons c cs ih =>
    rw [lineFirstError] at h
    rw [scanLine]
    cases hv : c.check_line line with
    | none =>
      rw [hv] at h
      exact ih _ h
    | some v2 =>
      rw [hv] at h
      cases hs : c.severity with
      | Error =>
        rw [hs] at h
        cases h
        rfl
      | Warning =>
        rw [hs] at h
        exact ih _ h

theorem scanLine_ok {checks : List HotPathCheck} {func_name line : String}
    (warnings : List String) (h : lineFirstError checks line = none) :
    scanLine func_name line warnings checks =
      .ok (warnings ++ lineWarnings func_name checks line) := by
  induction checks generalizing warnings with
  | nil => simp [scanLine, lineWarnings]
  | cons c cs ih =>
    rw [lineFirstError] at h
    rw [scanLine]
    cases hv : c.check_line line with
    | none =>
      rw [hv] at h
      rw [ih _ h]
      simp [lineWarnings, List.filterMap_cons, hv]
    | some v2 =>
      rw [hv] at h
      cases hs : c.severity with
      | Error => rw [hs] at h; cases h
      | Warning =>
        rw [hs] at h
        show scanLine func_name line (warnings ++ [func_name ++ ": " ++ v2]) cs = _
        rw [ih _ h]
        simp [lineWarnings, List.filterMap_cons, hv, hs]

theorem scanLines_error {checks : List HotPathCheck} {func_name v : String}
    {ls : List String} (warnings : List String) (h : firstError checks ls = some v) :
    scanLines func_name checks ls warnings = .error (func_name ++ ": " ++ v) := by
  induction ls generalizing warnings with
  | nil => simp [firstError] at h
  | cons l ls ih =>
    rw [firstError] at h
    rw [scanLines]
    cases hl : lineFirstError checks l with
    | some v2 =>
      rw [hl] at h
      cases h
      rw [scanLine_error warnings hl]
    | none =>
      rw [hl] at h
      rw [scanLine_ok warnings hl]
      show scanLines func_name checks ls (warnings ++ lineWarnings func_name checks l) = _
      exact ih _ h

theorem scanLines_ok {checks : List HotPathCheck} {func_name : String}
    {ls : List String} (warnings : List String) (h : firstError checks ls = none) :
    scanLines func_name checks ls warnings =
      .ok (warnings ++ collectWarnings func_name checks ls) := by
  induction ls generalizing warnings with
  | nil => simp [scanLines, collectWarnings]
  | cons l ls ih =>
    rw [firstError] at h
    cases hl : lineFirstError checks l with
    | some v2 => rw [hl] at h; cases h
    | none =>
      rw [hl] at h
      rw [scanLines, scanLine_ok warnings hl]
      show scanLines func_name checks ls (warnings ++ lineWarnings func_name checks l) = _
      rw [ih _ h, collectWarnings, List.append_assoc]

/-! Part: Substring and propagation lemmas -/

theorem isPrefixOf_eq_true_iff {pat s : List Char} :
    pat.isPrefixOf s = true ↔ ∃ t, s = pat ++ t := by
  induction pat generalizing s with
  | nil => simp [List.isPrefixOf]
  | cons c cs ih =>
    cases s with
    | nil => simp [List.isPrefixOf]
    | cons x xs =>
      simp only [List.isPrefixOf, Bool.and_eq_true, beq_iff_eq, ih]
      constructor
      · rintro ⟨hcx, t, ht⟩
        exact ⟨t, by simp [hcx, ht]⟩
      · rintro ⟨t, ht⟩
        injection ht with h1 h2
        exact ⟨h1.symm, t, h2⟩

theorem listIsInfix_iff {pat s : List Char} :
    listIsInfix pat s = true ↔ ∃ a b, s = a ++ pat ++ b := by
  induction s with
  | nil =>
    constructor
    · intro h
      have : pat = [] := by
        cases pat with
        | nil => rfl
        | cons c cs => simp [listIsInfix, List.isEmpty] at h
      exact ⟨[], [], by simp [this]⟩
    · rintro ⟨a, b, hab⟩
      have := List.append_eq_nil.mp (List.append_eq_nil.mp hab.symm).1
      simp [listIsInfix, this.2, List.isEmpty]
  | cons c s ih =>
    rw [listIsInfix]
    simp only [Bool.or_eq_true, isPrefixOf_eq_true_iff, ih]
    constructor
    · rintro (⟨t, ht⟩ | ⟨a, b, hab⟩)
      · exact ⟨[], t, by simp [ht]⟩
      · exact ⟨c :: a, b, by simp [hab]⟩
    · rintro ⟨a, b, hab⟩
      cases a with
      | nil => exact Or.inl ⟨b, by simpa using hab⟩
      | cons a0 as =>
        injection hab with h1 h2
        exact Or.inr ⟨as, b, h2⟩

/-- Substring of an explicit three-way split of the character data. -/
theorem strContains_of_data_split {s pat : String} {a b : List Char}
    (h : s.data = a ++ pat.data ++ b) : strContains s pat = true := by
  rw [strContains, listIsInfix_iff]
  exact ⟨a, b, h⟩

/-- The only error `find_function_body` produces is the not-found
message built around the requested name. -/
theorem find_function_body_error {ir func_name e : String}
    (h : find_function_body ir func_name = .error e) :
    e = "Function " ++ func_name ++ " not found in IR" := by
  rw [find_function_body] at h
  split at h
  · cases h
  · injection h with h1
    exact h1.symm

/-- The `verify` propagates extraction failures verbatim. -/
theorem verify_error_of_extract_error {v : HotPathVerifier} {ir func_name e : String}
    (h : find_function_body ir func_name = .error e) :
    v.verify ir func_name = .error e := by
  rw [HotPathVerifier.verify, h]

/-- The `verify` on a successfully extracted body with a first `Error`
finding `msg` returns exactly `"<name>: <msg>"`. -/
theorem verify_error_of_firstError {checks : List HotPathCheck}
    {ir func_name body v : String}
    (hb : find_function_body ir func_name = .ok body)
    (he : firstError checks (rustLines body) = some v) :
    HotPathVerifier.verify ⟨checks⟩ ir func_name = .error (func_name ++ ": " ++ v) := by
  rw [HotPathVerifier.verify, hb]
  exact scanLines_error [] he

/-- The `verify` on a successfully extracted body with no `Error` finding
returns exactly the accumulated warnings. -/
theorem verify_ok_of_no_error {checks : List HotPathCheck} {ir func_name body : String}
    (hb : find_function_body ir func_name = .ok body)
    (he : firstError checks (rustLines body) = none) :
    HotPathVerifier.verify ⟨checks⟩ ir func_name =
      .ok (collectWarnings func_name checks (rustLines body)) := by
  rw [HotPathVerifier.verify, hb]
  simpa using scanLines_ok [] he

/-- If some function in the batch enumeration fails its verification,
the batch returns an error. -/
theorem verifyAll_error_of_mem {v : HotPathVerifier} {ir func_name e : String}
    {order : List String} (hmem : func_name ∈ order)
    (hfail : v.verify ir func_name = .error e) :
    ∃ e2, verifyAll v ir order = .error e2 := by
  induction order with
  | nil => cases hmem
  | cons f fs ih =>
    rw [verifyAll]
    cases hv : v.verify ir f with
    | error e2 => exact ⟨e2, rfl⟩
    | ok w =>
      rcases List.mem_cons.mp hmem with hf | hf
      · rw [hf] at hfail
        rw [hfail] at hv
        cases hv
      · exact ih hf

/-- The default check list as an explicit literal. -/
theorem defaultChecks_eq :
    defaultChecks = [IndirectionCheck, AllocationCheck, FunctionCallCheck, AtomicCheck,
      VolatileLoadCheck, VolatileStoreCheck, DivisionCheck, UnalignedAccessCheck,
      NonInboundsGepCheck] := rfl

theorem lineFirstError_cons_none {c : HotPathCheck} {cs : List HotPathCheck}
    {line : String} (h : c.check_line line = none) :
    lineFirstError (c :: cs) line = lineFirstError cs line := by
  simp [lineFirstError, h]

theorem lineFirstError_cons_error {c : HotPathCheck} {cs : List HotPathCheck}
    {line v : String} (h : c.check_line line = some v) (hs : c.severity = .Error) :
    lineFirstError (c :: cs) line = some v := by
  simp [lineFirstError, h, hs]

theorem lineFirstError_cons_warn {c : HotPathCheck} {cs : List HotPathCheck}
    {line v : String} (h : c.check_line line = some v) (hs : c.severity = .Warning) :
    lineFirstError (c :: cs) line = lineFirstError cs line := by
  simp [lineFirstError, h, hs]

/-! Part: Claim theorems -/

/-- C1: for every IR text and function name whose body extraction
succeeds, verification scans body lines in order and registered checks
in registration order, and on the first finding whose check has `Error`
severity (`firstError`) it aborts immediately, returning a failure
value that is exactly the single message `"<function-name>: <violation
description>"` — the result is fully determined by the first `Error`
finding, so no other coexisting violation (same line or later) is
reported. -/
theorem verify_fail_fast_first_error {checks : List HotPathCheck}
    {ir func_name body msg : String}
    (hb : find_function_body ir func_name = .ok body)
    (he : firstError checks (rustLines body) = some msg) :
    HotPathVerifier.verify ⟨checks⟩ ir func_name = .error (func_name ++ ": " ++ msg) :=
  verify_error_of_firstError hb he

/-- C1 witness: on a body containing both an atomic RMW and a plain
call, the failure is the message of whichever `Error` check is
evaluated first in the default order (`FunctionCallCheck`, registered
before `AtomicCheck`), and only that message. -/
theorem verify_fail_fast_first_error_witness :
    find_function_body irC1 "test_func" = .ok bodyC1 ∧
    firstError defaultChecks (rustLines bodyC1) =
      some "contains function call (not inlined)" ∧
    HotPathVerifier.verify ⟨defaultChecks⟩ irC1 "test_func" =
      .error ("test_func" ++ ": " ++ "contains function call (not inlined)") :=
  ⟨rfl, rfl, verify_fail_fast_first_error rfl rfl⟩

/-- C2: a function name in the discovered hot-function set that the
body extractor cannot locate is never silently skipped: extraction
fails with a message containing both the requested name and
`"not found"`, single-function verification fails with that very
message, and the batch (over any enumeration of the discovered set)
propagates a failure to the caller. -/
theorem discovered_notfound_fails {ir func_name e : String} {order : List String}
    (hmem : func_name ∈ find_hot_functions_from_ir ir)
    (hord : (find_hot_functions_from_ir ir).Perm order)
    (hfail : find_function_body ir func_name = .error e) :
    strContains e func_name = true ∧ strContains e "not found" = true ∧
    defaultVerifier.verify ir func_name = .error e ∧
    ∃ e2, verify_hot_path_functions ir order = .error e2 := by
  have hmsg := find_function_body_error hfail
  refine ⟨?_, ?_, verify_error_of_extract_error hfail, ?_⟩
  · refine strContains_of_data_split (a := "Function ".data)
      (b := " not found in IR".data) ?_
    rw [hmsg, String.data_append .., String.data_append ..]
  · refine strContains_of_data_split
      (a := "Function ".data ++ func_name.data ++ " ".data) (b := " in IR".data) ?_
    rw [hmsg, String.data_append .., String.data_append ..]
    have hc : (" not found in IR" : String).data =
        (" " : String).data ++ ("not found" : String).data ++ (" in IR" : String).data := rfl
    rw [hc]
    simp [List.append_assoc]
  · exact verifyAll_error_of_mem (hord.mem_iff.mp hmem)
      (verify_error_of_extract_error hfail)

set_option maxRecDepth 40000 in
/-- C2 witness: `ghost` is discovered, extraction fails with a message
containing `ghost` and `not found`, and the batch fails. -/
theorem discovered_notfound_fails_witness :
    strContains "Function ghost not found in IR" "ghost" = true ∧
    strContains "Function ghost not found in IR" "not found" = true ∧
    defaultVerifier.verify irC2 "ghost" = .error "Function ghost not found in IR" ∧
    ∃ e2, verify_hot_path_functions irC2 ["ghost"] = .error e2 :=
  discovered_notfound_fails (by decide)
    (by rw [show find_hot_functions_from_ir irC2 = ["ghost"] from by decide]) rfl

/-- C3 counterexample: a function whose extracted body contains a call
instruction referencing a known allocator symbol, yet default
verification does not return a message containing `"allocation"` — the
claim as stated is false on this input. -/
theorem allocation_message_counterexample :
    AllocationCheck.check_line
        "  %1 = call ptr @malloc(i64 16) ; inside invoke block" =
      some "contains allocation (real-time violation)" ∧
    find_function_body irC3cx "test_func" =
      .ok "  %1 = call ptr @malloc(i64 16) ; inside invoke block" ∧
    defaultVerifier.verify irC3cx "test_func" =
      .error "test_func: contains indirection" ∧
    strContains "test_func: contains indirection" "allocation" = false :=
  ⟨by decide, rfl, rfl, by decide⟩

/-- C3 (amended): if the extracted body's line triggers the
`AllocationCheck` condition and does not also match the
earlier-registered `IndirectionCheck`, default verification fails with
exactly the allocation message — which contains `"allocation"` — and
the failure value carries no `Warning` accumulation (it is the single
message). -/
theorem allocation_wins_on_line {ir func_name body line amsg : String}
    (hb : find_function_body ir func_name = .ok body)
    (hlines : rustLines body = [line])
    (halloc : AllocationCheck.check_line line = some amsg)
    (hind : IndirectionCheck.check_line line = none) :
    defaultVerifier.verify ir func_name =
      .error (func_name ++ ": " ++ "contains allocation (real-time violation)") ∧
    strContains (func_name ++ ": " ++ "contains allocation (real-time violation)")
      "allocation" = true := by
  have hamsg : amsg = "contains allocation (real-time violation)" := by
    simp only [AllocationCheck] at halloc
    split at halloc
    · injection halloc with h1
      exact h1.symm
    · cases halloc
  subst hamsg
  constructor
  · have hfe : firstError defaultChecks (rustLines body) =
        some "contains allocation (real-time violation)" := by
      rw [hlines, firstError, defaultChecks_eq, lineFirstError_cons_none hind,
        lineFirstError_cons_error halloc rfl]
    exact verify_error_of_firstError hb hfe
  · refine strContains_of_data_split (a := func_name.data ++ (": contains " : String).data)
      (b := (" (real-time violation)" : String).data) ?_
    rw [String.data_append .., String.data_append ..]
    have hc : (": " : String).data ++
        ("contains allocation (real-time violation)" : String).data =
        (": contains " : String).data ++ ("allocation" : String).data ++
          (" (real-time violation)" : String).data := rfl
    rw [List.append_assoc, hc]
    simp [List.append_assoc]

/-- C3 witness: the amended claim at the repository's own allocation
test input. -/
theorem allocation_wins_on_line_witness :
    defaultVerifier.verify irC3 "test_func" =
      .error ("test_func" ++ ": " ++ "contains allocation (real-time violation)") ∧
    strContains ("test_func" ++ ": " ++ "contains allocation (real-time violation)")
      "allocation" = true :=
  allocation_wins_on_line rfl rfl rfl rfl

theorem splitColons_cons_ne {c : Char} (l : List Char) (h : c ≠ ':') :
    splitColons (c :: l) = consHead c (splitColons l) := by
  cases l with
  | nil => rfl
  | cons d rest => rw [splitColons, if_neg h]

theorem splitColons_nocolon {a : List Char} (h : ∀ c ∈ a, c ≠ ':') :
    splitColons a = [a] := by
  induction a with
  | nil => rfl
  | cons c a ih =>
    rw [splitColons_cons_ne a (h c (List.mem_cons_self c a)),
      ih (fun x hx => h x (List.mem_cons_of_mem c hx))]
    rfl

theorem splitColons_sep {a b : List Char} (h : ∀ c ∈ a, c ≠ ':') :
    splitColons (a ++ ':' :: ':' :: b) = a :: splitColons b := by
  induction a with
  | nil => rw [List.nil_append, splitColons, if_pos rfl, if_pos rfl]
  | cons c a ih =>
    rw [List.cons_append, splitColons_cons_ne _ (h c (List.mem_cons_self c a)),
      ih (fun x hx => h x (List.mem_cons_of_mem c hx))]
    rfl

/-- C5: for every non-empty sequence of path segments (none containing
the delimiter character), the mangler returns the concatenation, over
the segments in order, of each segment's decimal byte length followed
by the segment text verbatim, with no separators.  (It is a total Lean
function: no failure modes.) -/
theorem mangle_rust_path_concat (segs : List String) (hne : segs ≠ [])
    (hcol : ∀ s ∈ segs, ∀ c ∈ s.data, c ≠ ':') :
    mangle_rust_path (joinPath segs) =
      concatAll (segs.map (fun s => toString (utf8Len s.data) ++ s)) := by
  induction segs with
  | nil => exact absurd rfl hne
  | cons s rest ih =>
    cases rest with
    | nil =>
      rw [joinPath, mangle_rust_path,
        splitColons_nocolon (hcol s (List.mem_cons_self s []))]
      rfl
    | cons s2 rest2 =>
      have hjp : joinPath (s :: s2 :: rest2) = s ++ "::" ++ joinPath (s2 :: rest2) := rfl
      have hdata : (joinPath (s :: s2 :: rest2)).data =
          s.data ++ ':' :: ':' :: (joinPath (s2 :: rest2)).data := by
        rw [hjp, String.data_append .., String.data_append ..,
          List.append_assoc]
        rfl
      rw [mangle_rust_path, hdata,
        splitColons_sep (hcol s (List.mem_cons_self s _)), List.map_cons]
      have ihr := ih (List.cons_ne_nil s2 rest2)
        (fun x hx => hcol x (List.mem_cons_of_mem s hx))
      rw [mangle_rust_path] at ihr
      rw [List.map_cons, concatAll, concatAll, ihr]

/-- C5 witness: `["a","b","c"]` mangles to `"1a1b1c"` and `["foo"]` to
`"3foo"`. -/
theorem mangle_rust_path_concat_witness :
    mangle_rust_path (joinPath ["a", "b", "c"]) =
      concatAll (["a", "b", "c"].map (fun s => toString (utf8Len s.data) ++ s)) ∧
    joinPath ["a", "b", "c"] = "a::b::c" ∧
    mangle_rust_path "a::b::c" = "1a1b1c" ∧
    mangle_rust_path "foo" = "3foo" :=
  ⟨mangle_rust_path_concat ["a", "b", "c"] (by simp) (by decide), rfl, by decide, by decide⟩

set_option maxRecDepth 80000 in
/-- C6: the batch-determinism half of the claim fails on the code.  Both
orders below enumerate the same discovered hot-function set on the same
IR text, yet the batch reports different `Error` findings, so the
finding reported across runs is determined by the `HashSet` iteration
order, which the code leaves unspecified (Rust randomizes it per
process).  (Single-function verification is a pure function of its
arguments in this embedding, so the idempotence half holds trivially.) -/
theorem batch_error_depends_on_iteration_order :
    (find_hot_functions_from_ir irC6).Perm ["foo", "bar"] ∧
    (find_hot_functions_from_ir irC6).Perm ["bar", "foo"] ∧
    verify_hot_path_functions irC6 ["foo", "bar"] =
      .error "foo: contains allocation (real-time violation)" ∧
    verify_hot_path_functions irC6 ["bar", "foo"] =
      .error "bar: contains allocation (real-time violation)" ∧
    verify_hot_path_functions irC6 ["foo", "bar"] ≠
      verify_hot_path_functions irC6 ["bar", "foo"] := by
  have hset : find_hot_functions_from_ir irC6 = ["foo", "bar"] := by decide
  have h1 : verify_hot_path_functions irC6 ["foo", "bar"] =
      .error "foo: contains allocation (real-time violation)" := rfl
  have h2 : verify_hot_path_functions irC6 ["bar", "foo"] =
      .error "bar: contains allocation (real-time violation)" := rfl
  refine ⟨by rw [hset], by rw [hset]; decide, h1, h2, ?_⟩
  rw [h1, h2]
  intro h
  injection h with h3
  exact absurd h3 (by decide)

/-- C7 (amended): no accumulated `Warning` is dropped by
single-function verification — its success value is exactly the full
list of `Warning` messages produced by the scan, in scan order
(`collectWarnings`).  The batch entry point, however, returns the unit
value on success, so it does not carry the accumulated warnings. -/
theorem verify_success_is_collected_warnings :
    (∀ (checks : List HotPathCheck) (ir func_name body : String) (ws : List String),
      find_function_body ir func_name = .ok body →
      HotPathVerifier.verify ⟨checks⟩ ir func_name = .ok ws →
      ws = collectWarnings func_name checks (rustLines body)) ∧
    (∀ (ir func_name : String) (ws : List String),
      defaultVerifier.verify ir func_name = .ok ws →
      verify_hot_path_functions ir [func_name] = .ok ()) := by
  constructor
  · intro checks ir func_name body ws hb hok
    cases hfe : firstError checks (rustLines body) with
    | some v =>
      rw [verify_error_of_firstError hb hfe] at hok
      cases hok
    | none =>
      rw [verify_ok_of_no_error hb hfe] at hok
      injection hok with h1
      exact h1.symm
  · intro ir func_name ws hok
    rw [verify_hot_path_functions, verifyAll, hok]
    rfl

set_option maxRecDepth 40000 in
/-- C7 counterexample: single-function verification of `wf` succeeds
with a non-empty warning list, yet the batch entry point (over the
enumeration of the discovered set) returns the bare unit value — the
accumulated `Warning` is discarded, not surfaced, by the batch (and by
the `verify_hot_function` wrapper).  The claim's batch half is false. -/
theorem batch_discards_warnings_counterexample :
    find_hot_functions_from_ir irC7 = ["wf"] ∧
    defaultVerifier.verify irC7 "wf" =
      .ok ["wf: volatile load (forces memory access, ~100-300 cycles)"] ∧
    verify_hot_path_functions irC7 ["wf"] = .ok () ∧
    verify_hot_function irC7 "wf" = .ok () :=
  ⟨by decide, rfl, rfl, rfl⟩

set_option maxRecDepth 40000 in
/-- C7 witness: the amended claim at the volatile-load input — the
success value is exactly the collected warnings, and the batch returns
unit. -/
theorem verify_success_is_collected_warnings_witness :
    ["wf: volatile load (forces memory access, ~100-300 cycles)"] =
      collectWarnings "wf" defaultChecks
        (rustLines "  %1 = load volatile i32, ptr %p  ret i32 %1") ∧
    verify_hot_path_functions irC7 ["wf"] = .ok () :=
  ⟨verify_success_is_collected_warnings.1 defaultChecks irC7 "wf"
      "  %1 = load volatile i32, ptr %p  ret i32 %1"
      ["wf: volatile load (forces memory access, ~100-300 cycles)"] rfl rfl,
    verify_success_is_collected_warnings.2 irC7 "wf"
      ["wf: volatile load (forces memory access, ~100-300 cycles)"] rfl⟩

theorem lineFirstError_eq_none_iff {checks : List HotPathCheck} {l : String} :
    lineFirstError checks l = none ↔
      ∀ c ∈ checks, c.severity = .Error → c.check_line l = none := by
  induction checks with
  | nil => simp [lineFirstError]
  | cons c cs ih =>
    cases hv : c.check_line l with
    | none =>
      rw [lineFirstError_cons_none hv, ih]
      constructor
      · intro h c2 hc2 hsev
        rcases List.mem_cons.mp hc2 with h2 | h2
        · rw [h2]; exact hv
        · exact h c2 h2 hsev
      · intro h c2 hc2 hsev
        exact h c2 (List.mem_cons_of_mem c hc2) hsev
    | some v =>
      cases hs : c.severity with
      | Error =>
        rw [lineFirstError_cons_error hv hs]
        simp only [reduceCtorEq, false_iff]
        intro h
        have := h c (List.mem_cons_self c cs) hs
        rw [hv] at this
        cases this
      | Warning =>
        rw [lineFirstError_cons_warn hv hs, ih]
        constructor
        · intro h c2 hc2 hsev
          rcases List.mem_cons.mp hc2 with h2 | h2
          · rw [h2] at hsev
            rw [hsev] at hs
            cases hs
          · exact h c2 h2 hsev
        · intro h c2 hc2 hsev
          exact h c2 (List.mem_cons_of_mem c hc2) hsev

theorem firstError_eq_none_iff {checks : List HotPathCheck} {lines : List String} :
    firstError checks lines = none ↔ NoError checks lines := by
  induction lines with
  | nil => simp [firstError, NoError]
  | cons l ls ih =>
    rw [firstError]
    cases hl : lineFirstError checks l with
    | some v =>
      simp only [reduceCtorEq, false_iff, NoError]
      intro h
      have := lineFirstError_eq_none_iff.mpr
        (fun c hc hs => h l (List.mem_cons_self l ls) c hc hs)
      rw [hl] at this
      cases this
    | none =>
      rw [ih]
      constructor
      · intro h l2 hl2 c hc hs
        rcases List.mem_cons.mp hl2 with h2 | h2
        · rw [h2]
          exact lineFirstError_eq_none_iff.mp hl c hc hs
        · exact h l2 h2 c hc hs
      · intro h l2 hl2 c hc hs
        exact h l2 (List.mem_cons_of_mem l hl2) c hc hs

/-- The `NoError` only depends on the membership of the check list. -/
theorem noError_perm {cs1 cs2 : List HotPathCheck} {lines : List String}
    (hperm : cs1.Perm cs2) (h : NoError cs1 lines) : NoError cs2 lines :=
  fun l hl c hc hs => h l hl c (hperm.mem_iff.mpr hc) hs

/-- C8: permuting the registered checks never changes whether
verification fails — failure is equivalent to the existence of a line
and an `Error`-severity check that fires on it, which is invariant
under permutation of the check list; the order affects at most which
violation message is reported.  (This covers in particular any
reordering of the `Error`-severity checks.) -/
theorem verify_failure_perm_invariant (cs1 cs2 : List HotPathCheck)
    (hperm : cs1.Perm cs2) (ir func_name : String) :
    (HotPathVerifier.verify ⟨cs1⟩ ir func_name).isOk =
      (HotPathVerifier.verify ⟨cs2⟩ ir func_name).isOk := by
  cases hf : find_function_body ir func_name with
  | error e =>
    rw [verify_error_of_extract_error (v := ⟨cs1⟩) hf,
      verify_error_of_extract_error (v := ⟨cs2⟩) hf]
  | ok body =>
    by_cases hne : NoError cs1 (rustLines body)
    · rw [verify_ok_of_no_error hf (firstError_eq_none_iff.mpr hne),
        verify_ok_of_no_error hf (firstError_eq_none_iff.mpr (noError_perm hperm hne))]
      rfl
    · cases h1 : firstError cs1 (rustLines body) with
      | none => exact absurd (firstError_eq_none_iff.mp h1) hne
      | some v1 =>
        cases h2 : firstError cs2 (rustLines body) with
        | none =>
          exact absurd (noError_perm hperm.symm (firstError_eq_none_iff.mp h2)) hne
        | some v2 =>
          rw [verify_error_of_firstError hf h1, verify_error_of_firstError hf h2]
          rfl

/-- C8 witness: under the default order and under the transposed order
the verification fails either way (`isOk` agrees), while the reported
message differs — order affects only which violation is reported. -/
theorem verify_failure_perm_invariant_witness :
    (HotPathVerifier.verify ⟨defaultChecks⟩ irC8 "test_func").isOk =
      (HotPathVerifier.verify ⟨swappedChecks⟩ irC8 "test_func").isOk ∧
    HotPathVerifier.verify ⟨defaultChecks⟩ irC8 "test_func" =
      .error "test_func: contains function call (not inlined)" ∧
    HotPathVerifier.verify ⟨swappedChecks⟩ irC8 "test_func" =
      .error "test_func: contains atomic operation (real-time violation)" :=
  ⟨verify_failure_perm_invariant defaultChecks swappedChecks
      (by rw [defaultChecks_eq, swappedChecks]
          exact ((List.Perm.swap AtomicCheck FunctionCallCheck _).cons
            AllocationCheck).cons IndirectionCheck)
      irC8 "test_func",
    rfl, rfl⟩

theorem firstError_none_of_single_none {c : HotPathCheck} {lines : List String}
    (h : ∀ l ∈ lines, c.check_line l = none) : firstError [c] lines = none := by
  induction lines with
  | nil => rfl
  | cons l ls ih =>
    rw [firstError, lineFirstError_cons_none (h l (List.mem_cons_self l ls))]
    exact ih (fun l2 hl2 => h l2 (List.mem_cons_of_mem l hl2))

theorem collectWarnings_nil_of_single_none {func_name : String} {c : HotPathCheck}
    {lines : List String} (h : ∀ l ∈ lines, c.check_line l = none) :
    collectWarnings func_name [c] lines = [] := by
  induction lines with
  | nil => rfl
  | cons l ls ih =>
    rw [collectWarnings, ih (fun l2 hl2 => h l2 (List.mem_cons_of_mem l hl2))]
    simp [lineWarnings, h l (List.mem_cons_self l ls)]

/-- C9: any line containing the reserved intrinsic-namespace prefix
`@llvm.` produces no finding from `FunctionCallCheck`; consequently a
function whose body lines each either contain no call at all or are
intrinsic calls is not failed by the `FunctionCall` check (verification
with that check alone succeeds with no findings). -/
theorem intrinsic_calls_exempt :
    (∀ line : String, strContains line "@llvm." = true →
      FunctionCallCheck.check_line line = none) ∧
    (∀ ir func_name body : String, find_function_body ir func_name = .ok body →
      (∀ l ∈ rustLines body,
        strContains l "call" = false ∨ strContains l "@llvm." = true) →
      HotPathVerifier.verify ⟨[FunctionCallCheck]⟩ ir func_name = .ok []) := by
  have hline : ∀ line : String, strContains line "@llvm." = true →
      FunctionCallCheck.check_line line = none := by
    intro line h
    simp [FunctionCallCheck, h]
  refine ⟨hline, ?_⟩
  intro ir func_name body hb hlines
  have hnone : ∀ l ∈ rustLines body, FunctionCallCheck.check_line l = none := by
    intro l hl
    rcases hlines l hl with h | h
    · simp [FunctionCallCheck, h]
    · exact hline l h
  rw [verify_ok_of_no_error hb (firstError_none_of_single_none hnone),
    collectWarnings_nil_of_single_none hnone]

/-- C9 witness: the intrinsic line is exempt, and the function passes
the `FunctionCall` check. -/
theorem intrinsic_calls_exempt_witness :
    FunctionCallCheck.check_line
      "  %1 = call i32 @llvm.sadd.sat.i32(i32 %a, i32 %b)  ret i32 %1" = none ∧
    HotPathVerifier.verify ⟨[FunctionCallCheck]⟩ irC9 "test_func" = .ok [] :=
  ⟨intrinsic_calls_exempt.1
      "  %1 = call i32 @llvm.sadd.sat.i32(i32 %a, i32 %b)  ret i32 %1" (by decide),
    intrinsic_calls_exempt.2 irC9 "test_func"
      "  %1 = call i32 @llvm.sadd.sat.i32(i32 %a, i32 %b)  ret i32 %1" rfl
      (by decide)⟩

/-- Every identifier collected by the first discovery pass has the
shape `@alloc_` followed by a non-empty run of word characters. -/
theorem capturesIterFuel_shape {fuel : Nat} {s id : List Char}
    (h : id ∈ capturesIterFuel fuel s) :
    ∃ w, w ≠ [] ∧ (∀ c ∈ w, rustIsWordChar c = true) ∧
      id = "@alloc_".data ++ w := by
  induction fuel generalizing s with
  | zero => cases h
  | succ fuel ih =>
    rw [capturesIterFuel] at h
    cases hp : findPass1 s with
    | none => rw [hp] at h; cases h
    | some cr =>
      obtain ⟨cap, rest⟩ := cr
      rw [hp] at h
      rcases List.mem_cons.mp h with h2 | h2
      · obtain ⟨-, w, hcap, hwne, hwok⟩ := findPass1_some hp
        exact ⟨w, hwne, hwok, h2 ▸ hcap⟩
      · exact ih h2

theorem insertDedup_mem {acc : List String} {n x : String}
    (h : x ∈ insertDedup acc n) : x ∈ acc ∨ x = n := by
  rw [insertDedup] at h
  split at h
  · exact Or.inl h
  · rcases List.mem_append.mp h with h2 | h2
    · exact Or.inl h2
    · exact Or.inr (List.mem_singleton.mp h2)

/-- Every name in the fold underlying `find_hot_functions_from_ir`
either was already in the accumulator or is resolved by the second pass
from one of the processed identifiers. -/
theorem discover_foldl_mem (ir : String) :
    ∀ (ids : List (List Char)) (acc : List String) (name : String),
      name ∈ ids.foldl (fun acc id =>
        match findPass2 id ir.data with
        | some nm => insertDedup acc (String.mk nm)
        | none => acc) acc →
      name ∈ acc ∨ ∃ id ∈ ids, findPass2 id ir.data = some name.data := by
  intro ids
  induction ids with
  | nil => exact fun acc name h => Or.inl h
  | cons id ids ih =>
    intro acc name h
    rw [List.foldl_cons] at h
    rcases ih _ name h with h2 | ⟨id2, hid2, hp2⟩
    · cases hp : findPass2 id ir.data with
      | none =>
        rw [hp] at h2
        exact Or.inl h2
      | some nm =>
        rw [hp] at h2
        rcases insertDedup_mem h2 with h3 | h3
        · exact Or.inl h3
        · exact Or.inr ⟨id, List.mem_cons_self id ids, by rw [hp, h3]⟩
    · exact Or.inr ⟨id2, List.mem_cons_of_mem id hid2, hp2⟩

set_option maxRecDepth 40000 in
/-- C10: discovery only recognizes `.hot_funcs` entries referencing an
identifier of shape `@alloc_` followed by word characters: every
discovered name is resolved (by the second pass) from such an
identifier captured by the first pass, and an otherwise well-formed
entry whose identifier has a different shape contributes no name. -/
theorem discovery_requires_alloc_identifier :
    (∀ ir : String, ∀ name ∈ find_hot_functions_from_ir ir,
      ∃ id ∈ capturesIter ir.data,
        findPass2 id ir.data = some name.data ∧
        ∃ w, w ≠ [] ∧ (∀ c ∈ w, rustIsWordChar c = true) ∧
          id = "@alloc_".data ++ w) ∧
    find_hot_functions_from_ir irC10 = [] := by
  constructor
  · intro ir name hmem
    rw [find_hot_functions_from_ir] at hmem
    rcases discover_foldl_mem ir (capturesIter ir.data) [] name hmem with h | ⟨id, hid, hp⟩
    · cases h
    · exact ⟨id, hid, hp, capturesIterFuel_shape hid⟩
  · decide

set_option maxRecDepth 80000 in
/-- C10 witness: the discovered name `process` traces back to a
captured identifier of the required `@alloc_…` shape. -/
theorem discovery_requires_alloc_identifier_witness :
    ∃ id ∈ capturesIter irC10b.data,
      findPass2 id irC10b.data = some ("process" : String).data ∧
      ∃ w, w ≠ [] ∧ (∀ c ∈ w, rustIsWordChar c = true) ∧
        id = "@alloc_".data ++ w :=
  discovery_requires_alloc_identifier.1 irC10b "process" (by decide)

theorem word_not_ws {c : Char} (h : rustIsWordChar c = true) : rustIsWs c = false := by
  cases hw : rustIsWs c
  · rfl
  · exfalso
    rw [rustIsWs] at hw
    simp only [Bool.or_eq_true, decide_eq_true_eq] at hw
    rcases hw with ((((h1 | h1) | h1) | h1) | h1) | h1 <;>
      (subst h1; exact absurd h (by decide))

theorem word_ne_of {c x : Char} (h : rustIsWordChar c = true)
    (hx : rustIsWordChar x = false) : c ≠ x := by
  intro he
  rw [he, hx] at h
  cases h

theorem takeWhile_append_stop {p : Char → Bool} {a b : List Char} {d : Char}
    (ha : ∀ c ∈ a, p c = true) (hd : p d = false) :
    (a ++ d :: b).takeWhile p = a := by
  induction a with
  | nil => simp [List.takeWhile_cons, hd]
  | cons c a ih =>
    simp only [List.cons_append, List.takeWhile_cons, ha c (List.mem_cons_self c a),
      if_true]
    rw [ih (fun x hx => ha x (List.mem_cons_of_mem c hx))]

theorem dropWhile_append_stop {p : Char → Bool} {a b : List Char} {d : Char}
    (ha : ∀ c ∈ a, p c = true) (hd : p d = false) :
    (a ++ d :: b).dropWhile p = d :: b := by
  induction a with
  | nil => simp [List.dropWhile_cons, hd]
  | cons c a ih =>
    simp only [List.cons_append, List.dropWhile_cons, ha c (List.mem_cons_self c a),
      if_true]
    exact ih (fun x hx => ha x (List.mem_cons_of_mem c hx))

theorem tryStops_first {α : Type} {k : List Char → Option α} {rev s : List Char} {r : α}
    (h : k s = some r) : tryStops k rev s = some r := by
  cases rev with
  | nil => simpa [tryStops] using h
  | cons c rev => rw [tryStops, h]

theorem tryStopsCap_first {α : Type} {k : List Char → List Char → Option α}
    {rev s : List Char} {r : α} (h : k rev s = some r) : tryStopsCap k rev s = some r := by
  cases rev with
  | nil => simpa [tryStopsCap] using h
  | cons c rev => rw [tryStopsCap, h]

theorem plusClass_cons {α : Type} {ok : Char → Bool} {k : List Char → Option α}
    {c : Char} {s : List Char} :
    plusClass ok k (c :: s) = if ok c then starClass ok k s else none := rfl

theorem plusClass_cons_neg {α : Type} {ok : Char → Bool} {k : List Char → Option α}
    {c : Char} {s : List Char} (h : ok c = false) : plusClass ok k (c :: s) = none := by
  rw [plusClass_cons, h]
  rfl

theorem plusClassCap_cons {α : Type} {ok : Char → Bool}
    {k : List Char → List Char → Option α} {c : Char} {s : List Char} :
    plusClassCap ok k (c :: s) =
      if ok c then
        tryStopsCap (fun rev suf => k (c :: rev.reverse) suf)
          (s.takeWhile ok).reverse (s.dropWhile ok)
      else none := rfl

theorem tryStops_nil {α : Type} {k : List Char → Option α} {s : List Char} :
    tryStops k [] s = k s := rfl

set_option maxHeartbeats 2000000 in
/-- The first discovery pattern matches at the planted `ptr @alloc_…`
position of a well-formed entry, capturing the identifier and resuming
after the `".hot_funcs"` literal. -/
theorem pass1At_planted {w z : List Char} (c0 : Char) (hc0 : rustIsWordChar c0 = true)
    (hword : ∀ c ∈ w, rustIsWordChar c = true) :
    pass1At ("ptr @alloc_".data ++
        (c0 :: (w ++ (" section \".hot_funcs\"".data ++ '\n' :: z))))
      = some ("@alloc_".data ++ c0 :: w, '\n' :: z) := by
  have htw : (w ++ (" section \".hot_funcs\"".data ++ '\n' :: z)).takeWhile rustIsWordChar
      = w := by
    rw [show " section \".hot_funcs\"".data ++ '\n' :: z
        = ' ' :: ("section \".hot_funcs\"".data ++ '\n' :: z) from by simp]
    exact takeWhile_append_stop hword (by decide)
  have hdw : (w ++ (" section \".hot_funcs\"".data ++ '\n' :: z)).dropWhile rustIsWordChar
      = ' ' :: ("section \".hot_funcs\"".data ++ '\n' :: z) := by
    rw [show " section \".hot_funcs\"".data ++ '\n' :: z
        = ' ' :: ("section \".hot_funcs\"".data ++ '\n' :: z) from by simp]
    exact dropWhile_append_stop hword (by decide)
  rw [show ("ptr @alloc_".data ++
        (c0 :: (w ++ (" section \".hot_funcs\"".data ++ '\n' :: z))))
      = 'p' :: 't' :: 'r' :: ' ' :: '@' :: 'a' :: 'l' :: 'l' :: 'o' :: 'c' :: '_' ::
        (c0 :: (w ++ (" section \".hot_funcs\"".data ++ '\n' :: z))) from by simp]
  rw [pass1At]
  rw [show dropLit "ptr".data ('p' :: 't' :: 'r' :: ' ' :: '@' :: 'a' :: 'l' :: 'l' :: 'o' :: 'c' :: '_' ::
        (c0 :: (w ++ (" section \".hot_funcs\"".data ++ '\n' :: z))))
      = some (' ' :: '@' :: 'a' :: 'l' :: 'l' :: 'o' :: 'c' :: '_' ::
        (c0 :: (w ++ (" section \".hot_funcs\"".data ++ '\n' :: z)))) from by simp [dropLit]]
  simp only [Option.some_bind]
  rw [plusClass_cons, if_pos (by decide : rustIsWs ' ' = true)]
  rw [starClass,
    show List.takeWhile rustIsWs ('@' :: 'a' :: 'l' :: 'l' :: 'o' :: 'c' :: '_' ::
        (c0 :: (w ++ (" section \".hot_funcs\"".data ++ '\n' :: z)))) = [] from by
      simp [List.takeWhile_cons, rustIsWs],
    show List.dropWhile rustIsWs ('@' :: 'a' :: 'l' :: 'l' :: 'o' :: 'c' :: '_' ::
        (c0 :: (w ++ (" section \".hot_funcs\"".data ++ '\n' :: z))))
      = '@' :: 'a' :: 'l' :: 'l' :: 'o' :: 'c' :: '_' ::
        (c0 :: (w ++ (" section \".hot_funcs\"".data ++ '\n' :: z))) from by
      simp [List.dropWhile_cons, rustIsWs],
    List.reverse_nil, tryStops_nil]
  rw [show dropLit "@alloc_".data ('@' :: 'a' :: 'l' :: 'l' :: 'o' :: 'c' :: '_' ::
        (c0 :: (w ++ (" section \".hot_funcs\"".data ++ '\n' :: z))))
      = some (c0 :: (w ++ (" section \".hot_funcs\"".data ++ '\n' :: z))) from by
      simp [dropLit]]
  simp only [Option.some_bind]
  rw [plusClassCap_cons, if_pos hc0, htw, hdw]
  apply tryStopsCap_first
  simp only [List.reverse_reverse]
  rw [starClass,
    show List.takeWhile (fun c => !decide (c = '\n'))
        (' ' :: ("section \".hot_funcs\"".data ++ '\n' :: z))
      = ' ' :: "section \".hot_funcs\"".data from by
      rw [show (' ' :: ("section \".hot_funcs\"".data ++ '\n' :: z))
          = (' ' :: "section \".hot_funcs\"".data) ++ '\n' :: z from by simp]
      exact takeWhile_append_stop (by decide) (by decide),
    show List.dropWhile (fun c => !decide (c = '\n'))
        (' ' :: ("section \".hot_funcs\"".data ++ '\n' :: z)) = '\n' :: z from by
      rw [show (' ' :: ("section \".hot_funcs\"".data ++ '\n' :: z))
          = (' ' :: "section \".hot_funcs\"".data) ++ '\n' :: z from by simp]
      exact dropWhile_append_stop (by decide) (by decide)]
  simp [tryStops, dropLit, plusClass_cons, starClass, rustIsWs, List.takeWhile_cons,
    List.dropWhile_cons]

theorem pass1At_cons_ne_p {c : Char} {s : List Char} (h : c ≠ 'p') :
    pass1At (c :: s) = none := by
  rw [pass1At]
  rw [show dropLit "ptr".data (c :: s) = none from by simp [dropLit, h]]
  rfl

/-- No first-pass match starts inside a run of word characters that is
followed by the backslash of a `\00` terminator. -/
theorem pass1At_word_bs {u z : List Char} (hne : u ≠ [])
    (hword : ∀ c ∈ u, rustIsWordChar c = true) :
    pass1At (u ++ '\\' :: z) = none := by
  match u, hne with
  | [a], _ =>
    rw [pass1At]
    rw [show dropLit "ptr".data ([a] ++ '\\' :: z) = none from by
      by_cases ha : a = 'p' <;> simp [dropLit, ha]]
    rfl
  | [a, b], _ =>
    rw [pass1At]
    rw [show dropLit "ptr".data ([a, b] ++ '\\' :: z) = none from by
      by_cases ha : a = 'p' <;> by_cases hb : b = 't' <;> simp [dropLit, ha, hb]]
    rfl
  | a :: b :: c :: u3, _ =>
    by_cases habc : a = 'p' ∧ b = 't' ∧ c = 'r'
    · obtain ⟨rfl, rfl, rfl⟩ := habc
      rw [pass1At]
      rw [show dropLit "ptr".data (('p' :: 't' :: 'r' :: u3) ++ '\\' :: z)
          = some (u3 ++ '\\' :: z) from by simp [dropLit]]
      simp only [Option.some_bind]
      cases u3 with
      | nil =>
        rw [List.nil_append, plusClass_cons_neg (by decide : rustIsWs '\\' = false)]
      | cons d u4 =>
        rw [List.cons_append, plusClass_cons_neg
          (word_not_ws (hword d (by simp [List.mem_cons])))]
    · rw [pass1At]
      rw [show dropLit "ptr".data ((a :: b :: c :: u3) ++ '\\' :: z) = none from by
        by_cases ha : a = 'p' <;> by_cases hb : b = 't' <;> by_cases hc : c = 'r' <;>
          simp [dropLit, ha, hb, hc] <;> exact absurd ⟨ha, hb, hc⟩ habc]
      rfl

/-- No first-pass match starts inside a run of word characters that is
followed by a single space and a non-whitespace, non-`@` character. -/
theorem pass1At_word_sp {u z : List Char} {d : Char} (hne : u ≠ [])
    (hword : ∀ c ∈ u, rustIsWordChar c = true)
    (hd : rustIsWs d = false) (hdat : d ≠ '@') :
    pass1At (u ++ ' ' :: d :: z) = none := by
  match u, hne with
  | [a], _ =>
    rw [pass1At]
    rw [show dropLit "ptr".data ([a] ++ ' ' :: d :: z) = none from by
      by_cases ha : a = 'p' <;> simp [dropLit, ha]]
    rfl
  | [a, b], _ =>
    rw [pass1At]
    rw [show dropLit "ptr".data ([a, b] ++ ' ' :: d :: z) = none from by
      by_cases ha : a = 'p' <;> by_cases hb : b = 't' <;> simp [dropLit, ha, hb]]
    rfl
  | a :: b :: c :: u3, _ =>
    by_cases habc : a = 'p' ∧ b = 't' ∧ c = 'r'
    · obtain ⟨rfl, rfl, rfl⟩ := habc
      rw [pass1At]
      rw [show dropLit "ptr".data (('p' :: 't' :: 'r' :: u3) ++ ' ' :: d :: z)
          = some (u3 ++ ' ' :: d :: z) from by simp [dropLit]]
      simp only [Option.some_bind]
      cases u3 with
      | nil =>
        rw [List.nil_append, plusClass_cons, if_pos (by decide : rustIsWs ' ' = true),
          starClass, List.takeWhile_cons_of_neg (by simp [hd]),
          List.dropWhile_cons_of_neg (by simp [hd]), List.reverse_nil, tryStops_nil]
        rw [show dropLit "@alloc_".data (d :: z) = none from by simp [dropLit, hdat]]
        rfl
      | cons e u4 =>
        rw [List.cons_append, plusClass_cons_neg
          (word_not_ws (hword e (by simp [List.mem_cons])))]
    · rw [pass1At]
      rw [show dropLit "ptr".data ((a :: b :: c :: u3) ++ ' ' :: d :: z) = none from by
        by_cases ha : a = 'p' <;> by_cases hb : b = 't' <;> by_cases hc : c = 'r' <;>
          simp [dropLit, ha, hb, hc] <;> exact absurd ⟨ha, hb, hc⟩ habc]
      rfl

theorem findPass1_cons_none {c : Char} {s : List Char} (h : pass1At (c :: s) = none) :
    findPass1 (c :: s) = findPass1 s := by
  simp only [findPass1, h]

theorem findPass1_eq_some_of_pass1At {s cap rest : List Char}
    (h : pass1At s = some (cap, rest)) : findPass1 s = some (cap, rest) := by
  cases s with
  | nil => simpa [findPass1] using h
  | cons c s => simp only [findPass1, h]

theorem findPass1_skip_ne_p {y z : List Char} (h : ∀ c ∈ y, c ≠ 'p') :
    findPass1 (y ++ z) = findPass1 z := by
  induction y with
  | nil => rfl
  | cons c y ih =>
    rw [List.cons_append,
      findPass1_cons_none (pass1At_cons_ne_p (h c (List.mem_cons_self c y))),
      ih (fun x hx => h x (List.mem_cons_of_mem c hx))]

theorem findPass1_skip_word_bs {y z : List Char}
    (hword : ∀ c ∈ y, rustIsWordChar c = true) (hz : ∃ z2, z = '\\' :: z2) :
    findPass1 (y ++ z) = findPass1 z := by
  obtain ⟨z2, rfl⟩ := hz
  induction y with
  | nil => rfl
  | cons c y ih =>
    rw [List.cons_append]
    rw [show c :: (y ++ '\\' :: z2) = (c :: y) ++ '\\' :: z2 from rfl] at *
    rw [show findPass1 ((c :: y) ++ '\\' :: z2) = findPass1 (y ++ '\\' :: z2) from by
      rw [List.cons_append]
      exact findPass1_cons_none (by
        rw [show c :: (y ++ '\\' :: z2) = (c :: y) ++ '\\' :: z2 from rfl]
        exact pass1At_word_bs (List.cons_ne_nil c y) hword)]
    exact ih (fun x hx => hword x (List.mem_cons_of_mem c hx))

theorem findPass1_skip_word_sp {y z : List Char} {d : Char}
    (hword : ∀ c ∈ y, rustIsWordChar c = true) (hz : ∃ z2, z = ' ' :: d :: z2)
    (hd : rustIsWs d = false) (hdat : d ≠ '@') :
    findPass1 (y ++ z) = findPass1 z := by
  obtain ⟨z2, rfl⟩ := hz
  induction y with
  | nil => rfl
  | cons c y ih =>
    rw [List.cons_append]
    rw [show findPass1 (c :: (y ++ ' ' :: d :: z2)) = findPass1 (y ++ ' ' :: d :: z2) from by
      exact findPass1_cons_none (by
        rw [show c :: (y ++ ' ' :: d :: z2) = (c :: y) ++ ' ' :: d :: z2 from rfl]
        exact pass1At_word_sp (List.cons_ne_nil c y) hword hd hdat)]
    exact ih (fun x hx => hword x (List.mem_cons_of_mem c hx))

/-- On a well-formed entry followed by anything, the leftmost first-pass
match is the entry's own `ptr @alloc_…` position. -/
theorem findPass1_entry {w n z : List Char} (hwne : w ≠ [])
    (hword : ∀ c ∈ w, rustIsWordChar c = true) (hnne : n ≠ [])
    (hnword : ∀ c ∈ n, rustIsWordChar c = true) :
    findPass1 (hotEntry w n ++ z) = some ("@alloc_".data ++ w, '\n' :: z) := by
  cases w with
  | nil => exact absurd rfl hwne
  | cons c0 w' =>
    have hnorm : hotEntry (c0 :: w') n ++ z
        = "@alloc_".data ++ ((c0 :: w') ++ (" = c\"".data ++ (n ++ ("\\00\"\nx = ".data ++
          ("ptr @alloc_".data ++
            (c0 :: (w' ++ (" section \".hot_funcs\"".data ++ '\n' :: z)))))))) := by
      simp [hotEntry, List.append_assoc]
    rw [hnorm]
    rw [findPass1_skip_ne_p (by decide)]
    rw [findPass1_skip_word_sp (d := '=') hword
      ⟨" c\"".data ++ (n ++ ("\\00\"\nx = ".data ++ ("ptr @alloc_".data ++
        (c0 :: (w' ++ (" section \".hot_funcs\"".data ++ '\n' :: z)))))), by simp⟩
      (by decide) (by decide)]
    rw [findPass1_skip_ne_p (by decide)]
    rw [findPass1_skip_word_bs hnword
      ⟨"00\"\nx = ".data ++ ("ptr @alloc_".data ++
        (c0 :: (w' ++ (" section \".hot_funcs\"".data ++ '\n' :: z)))), by simp⟩]
    rw [findPass1_skip_ne_p (by decide)]
    exact findPass1_eq_some_of_pass1At
      (pass1At_planted c0 (hword c0 (List.mem_cons_self c0 w'))
        (fun c hc => hword c (List.mem_cons_of_mem c0 hc)))

/-- One-step unfolding of `capturesIter`. -/
theorem capturesIter_eq (s : List Char) :
    capturesIter s =
      match findPass1 s with
      | none => []
      | some (cap, rest) => cap :: capturesIter rest := by
  rw [capturesIter, capturesIterFuel]
  cases hp : findPass1 s with
  | none => rfl
  | some cr =>
    obtain ⟨cap, rest⟩ := cr
    have hlt := findPass1_rest_lt hp
    exact congrArg (cap :: ·)
      (capturesIterFuel_irrel _ _ rest hlt (Nat.lt_succ_self _))

theorem capturesIter_congr {s1 s2 : List Char} (h : findPass1 s1 = findPass1 s2) :
    capturesIter s1 = capturesIter s2 := by
  rw [capturesIter_eq s1, capturesIter_eq s2, h]

/-- First-pass capture list over the canonical IR: exactly the planted
identifiers, in order. -/
theorem capturesIter_mkHotIR (ps : List (List Char × List Char))
    (hw : ∀ p ∈ ps, p.1 ≠ [] ∧ ∀ c ∈ p.1, rustIsWordChar c = true)
    (hn : ∀ p ∈ ps, p.2 ≠ [] ∧ ∀ c ∈ p.2, rustIsWordChar c = true) :
    capturesIter (mkHotIR ps) = ps.map (fun p => "@alloc_".data ++ p.1) := by
  induction ps with
  | nil => rfl
  | cons p ps ih =>
    obtain ⟨w, n⟩ := p
    have hwp := hw (w, n) (List.mem_cons_self _ _)
    have hnp := hn (w, n) (List.mem_cons_self _ _)
    rw [show mkHotIR ((w, n) :: ps) = hotEntry w n ++ mkHotIR ps from rfl,
      capturesIter_eq, findPass1_entry hwp.1 hwp.2 hnp.1 hnp.2]
    have hskip : capturesIter ('\n' :: mkHotIR ps) = capturesIter (mkHotIR ps) := by
      refine capturesIter_congr ?_
      rw [show '\n' :: mkHotIR ps = ['\n'] ++ mkHotIR ps from rfl]
      exact findPass1_skip_ne_p (by decide)
    simp only []
    rw [hskip, ih (fun q hq => hw q (List.mem_cons_of_mem _ hq))
      (fun q hq => hn q (List.mem_cons_of_mem _ hq)), List.map_cons]

theorem dropLit_self_append (a t : List Char) : dropLit a (a ++ t) = some t := by
  induction a with
  | nil => rfl
  | cons c a ih => simp [dropLit, ih]

theorem dropLit_append (a b s : List Char) :
    dropLit (a ++ b) s = (dropLit a s).bind (dropLit b) := by
  induction a generalizing s with
  | nil => simp [dropLit]
  | cons c a ih =>
    cases s with
    | nil => simp [dropLit]
    | cons x xs =>
      by_cases hx : x = c
      · simp [dropLit, hx, ih]
      · simp [dropLit, hx]

/-- Stripping one identifier word from another word followed by a
space: either it fails, or the remainder still starts with a word
character (so the following `\s*=` can never match). -/
theorem dropLit_word_space {wi wj r : List Char} (hne : wi ≠ wj)
    (hwi : ∀ c ∈ wi, rustIsWordChar c = true)
    (hwj : ∀ c ∈ wj, rustIsWordChar c = true) :
    dropLit wi (wj ++ ' ' :: r) = none ∨
    ∃ d t, rustIsWordChar d = true ∧ dropLit wi (wj ++ ' ' :: r) = some (d :: t) := by
  induction wi generalizing wj with
  | nil =>
    cases wj with
    | nil => exact absurd rfl hne
    | cons d wj2 =>
      exact Or.inr ⟨d, wj2 ++ ' ' :: r, hwj d (List.mem_cons_self d wj2), by simp [dropLit]⟩
  | cons c ci ih =>
    cases wj with
    | nil =>
      left
      have hc : (' ' : Char) ≠ c :=
        Ne.symm (word_ne_of (hwi c (List.mem_cons_self c ci)) (by decide))
      simp [dropLit, hc]
    | cons d wj2 =>
      by_cases hdc : d = c
      · subst hdc
        rw [show (d :: wj2) ++ ' ' :: r = d :: (wj2 ++ ' ' :: r) from rfl,
          show dropLit (d :: ci) (d :: (wj2 ++ ' ' :: r))
            = dropLit ci (wj2 ++ ' ' :: r) from by simp [dropLit]]
        exact ih (fun h => hne (by rw [h]))
          (fun x hx => hwi x (List.mem_cons_of_mem d hx))
          (fun x hx => hwj x (List.mem_cons_of_mem d hx))
      · left
        have hdc2 : ¬(d = c) := hdc
        simp [dropLit, hdc2]

/-- The second discovery pattern for identifier `@alloc_<wi>` fails at
the occurrence of a different identifier `@alloc_<wj>` (no `=` can
follow). -/
theorem pass2At_foreign {wi wj r : List Char} (hne : wi ≠ wj)
    (hwi : ∀ c ∈ wi, rustIsWordChar c = true)
    (hwj : ∀ c ∈ wj, rustIsWordChar c = true) :
    pass2At ("@alloc_".data ++ wi) ("@alloc_".data ++ (wj ++ ' ' :: r)) = none := by
  rw [pass2At, dropLit_append, dropLit_self_append]
  simp only [Option.some_bind]
  rcases dropLit_word_space hne hwi hwj with h | ⟨d, t, hd, h⟩
  · rw [h]
    rfl
  · rw [h]
    simp only [Option.some_bind]
    rw [starClass, List.takeWhile_cons_of_neg (by simp [word_not_ws hd]),
      List.dropWhile_cons_of_neg (by simp [word_not_ws hd]), List.reverse_nil,
      tryStops_nil]
    rw [show dropLit ['='] (d :: t) = none from by
      have hd2 : d ≠ '=' := word_ne_of (x := '=') hd (by decide)
      simp [dropLit, hd2]]
    rfl

theorem tryStopsCap_cons_none {α : Type} {k : List Char → List Char → Option α}
    {c : Char} {rev s : List Char} (h : k (c :: rev) s = none) :
    tryStopsCap k (c :: rev) s = tryStopsCap k rev (c :: s) := by
  rw [tryStopsCap, h]

theorem lazySkip_cons_none {α : Type} {k : List Char → Option α} {c : Char}
    {s : List Char} (h : k (c :: s) = none) (hc : ¬(c = '\n')) :
    lazySkip k (c :: s) = lazySkip k s := by
  rw [lazySkip, h, if_neg hc]

theorem lazySkip_first {α : Type} {k : List Char → Option α} {s : List Char} {r : α}
    (h : k s = some r) : lazySkip k s = some r := by
  cases s with
  | nil => simpa [lazySkip] using h
  | cons c s => rw [lazySkip, h]

set_option maxHeartbeats 2000000 in
/-- The second discovery pattern succeeds at the identifier's own
definition, capturing exactly the null-terminated payload. -/
theorem pass2At_planted {w n z : List Char} (hnne : n ≠ [])
    (hnword : ∀ c ∈ n, rustIsWordChar c = true) :
    pass2At ("@alloc_".data ++ w)
      (("@alloc_".data ++ w) ++
        (" = c\"".data ++ (n ++ ('\\' :: '0' :: '0' :: '"' :: z))))
      = some n := by
  cases n with
  | nil => exact absurd rfl hnne
  | cons c0 n' =>
    have hword' : ∀ c ∈ n', rustIsWordChar c = true :=
      fun c hc => hnword c (List.mem_cons_of_mem c0 hc)
    rw [pass2At, dropLit_self_append]
    simp only [Option.some_bind]
    rw [show " = c\"".data ++ ((c0 :: n') ++ '\\' :: '0' :: '0' :: '"' :: z)
        = ' ' :: '=' :: ' ' :: 'c' :: '"' :: ((c0 :: n') ++ '\\' :: '0' :: '0' :: '"' :: z)
        from by simp]
    rw [starClass,
      show List.takeWhile rustIsWs
          (' ' :: '=' :: ' ' :: 'c' :: '"' :: ((c0 :: n') ++ '\\' :: '0' :: '0' :: '"' :: z))
        = [' '] from by simp [List.takeWhile_cons, rustIsWs],
      show List.dropWhile rustIsWs
          (' ' :: '=' :: ' ' :: 'c' :: '"' :: ((c0 :: n') ++ '\\' :: '0' :: '0' :: '"' :: z))
        = '=' :: ' ' :: 'c' :: '"' :: ((c0 :: n') ++ '\\' :: '0' :: '0' :: '"' :: z)
        from by simp [List.dropWhile_cons, rustIsWs]]
    apply tryStops_first
    rw [show dropLit ['=']
        ('=' :: ' ' :: 'c' :: '"' :: ((c0 :: n') ++ '\\' :: '0' :: '0' :: '"' :: z))
        = some (' ' :: 'c' :: '"' :: ((c0 :: n') ++ '\\' :: '0' :: '0' :: '"' :: z))
        from by simp [dropLit]]
    simp only [Option.some_bind]
    rw [lazySkip_cons_none (by simp [dropLit]) (by decide)]
    apply lazySkip_first
    rw [show dropLit ['c', '"']
        ('c' :: '"' :: ((c0 :: n') ++ '\\' :: '0' :: '0' :: '"' :: z))
        = some ((c0 :: n') ++ '\\' :: '0' :: '0' :: '"' :: z) from by simp [dropLit]]
    simp only [Option.some_bind]
    rw [show ((c0 :: n') ++ '\\' :: '0' :: '0' :: '"' :: z)
        = c0 :: (n' ++ '\\' :: '0' :: '0' :: '"' :: z) from rfl]
    have hnq : ∀ x ∈ n' ++ ['\\', '0', '0'], (!decide (x = '"')) = true := by
      intro x hx
      rcases List.mem_append.mp hx with h | h
      · simp [word_ne_of (x := '"') (hword' x h) (by decide)]
      · simp only [List.mem_cons, List.mem_singleton, List.not_mem_nil, or_false] at h
        rcases h with rfl | rfl | rfl <;> decide
    rw [plusClassCap_cons,
      if_pos (by
        simp [word_ne_of (x := '"') (hnword c0 (List.mem_cons_self c0 n')) (by decide)])]
    rw [show n' ++ '\\' :: '0' :: '0' :: '"' :: z
        = (n' ++ ['\\', '0', '0']) ++ '"' :: z from by simp,
      takeWhile_append_stop hnq (by simp), dropWhile_append_stop hnq (by simp)]
    rw [show (n' ++ ['\\', '0', '0']).reverse = '0' :: '0' :: '\\' :: n'.reverse from by
      simp]
    rw [tryStopsCap_cons_none (by simp [dropLit]),
      tryStopsCap_cons_none (by simp [dropLit]),
      tryStopsCap_cons_none (by simp [dropLit])]
    apply tryStopsCap_first
    rw [show dropLit ['\\', '0', '0', '"'] ('\\' :: '0' :: '0' :: '"' :: z) = some z
      from by simp [dropLit]]
    simp

theorem pass2At_cons_ne_at {i2 s : List Char} {c : Char} (h : ¬(c = '@')) :
    pass2At ('@' :: i2) (c :: s) = none := by
  rw [pass2At]
  rw [show dropLit ('@' :: i2) (c :: s) = none from by simp [dropLit, h]]
  rfl

theorem findPass2_cons_none {i1 s : List Char} {c : Char}
    (h : pass2At i1 (c :: s) = none) :
    findPass2 i1 (c :: s) = findPass2 i1 s := by
  simp only [findPass2, h]

theorem findPass2_eq_some_of_pass2At {i1 s nm : List Char}
    (h : pass2At i1 s = some nm) : findPass2 i1 s = some nm := by
  cases s with
  | nil => simpa [findPass2] using h
  | cons c s => simp only [findPass2, h]

theorem findPass2_skip_no_at {i2 y z : List Char} (hy : ∀ c ∈ y, ¬(c = '@')) :
    findPass2 ('@' :: i2) (y ++ z) = findPass2 ('@' :: i2) z := by
  induction y with
  | nil => rfl
  | cons c y ih =>
    rw [List.cons_append,
      findPass2_cons_none (pass2At_cons_ne_at (hy c (List.mem_cons_self c y))),
      ih (fun x hx => hy x (List.mem_cons_of_mem c hx))]

/-- Scanning for a different identifier skips a whole foreign entry. -/
theorem findPass2_skip_entry {wi wj nj z : List Char} (hne : wi ≠ wj)
    (hwi : ∀ c ∈ wi, rustIsWordChar c = true)
    (hwj : ∀ c ∈ wj, rustIsWordChar c = true)
    (hnj : ∀ c ∈ nj, rustIsWordChar c = true) :
    findPass2 ("@alloc_".data ++ wi) (hotEntry wj nj ++ z)
      = findPass2 ("@alloc_".data ++ wi) z := by
  have hid : "@alloc_".data ++ wi = '@' :: ("alloc_".data ++ wi) := by simp
  have hnoat : ∀ (v : List Char), (∀ c ∈ v, rustIsWordChar c = true) →
      ∀ c ∈ v, ¬(c = '@') :=
    fun v hv c hc => word_ne_of (x := '@') (hv c hc) (by decide)
  have h1 : hotEntry wj nj ++ z
      = '@' :: (("alloc_".data ++ (wj ++ (" = c\"".data ++ (nj ++ "\\00\"\nx = ptr ".data))))
          ++ ('@' :: ("alloc_".data ++ (wj ++ (" section \".hot_funcs\"\n".data ++ z))))) := by
    simp [hotEntry, List.append_assoc]
  have hfail1 : pass2At ("@alloc_".data ++ wi) (hotEntry wj nj ++ z) = none := by
    have : hotEntry wj nj ++ z = "@alloc_".data ++
        (wj ++ ' ' :: ("= c\"".data ++ (nj ++ ("\\00\"\nx = ptr @alloc_".data ++
          (wj ++ (" section \".hot_funcs\"\n".data ++ z)))))) := by
      simp [hotEntry, List.append_assoc]
    rw [this]
    exact pass2At_foreign hne hwi hwj
  have hfail2 : pass2At ("@alloc_".data ++ wi)
      ('@' :: ("alloc_".data ++ (wj ++ (" section \".hot_funcs\"\n".data ++ z)))) = none := by
    have : '@' :: ("alloc_".data ++ (wj ++ (" section \".hot_funcs\"\n".data ++ z)))
        = "@alloc_".data ++
          (wj ++ ' ' :: ("section \".hot_funcs\"\n".data ++ z)) := by
      simp [List.append_assoc]
    rw [this]
    exact pass2At_foreign hne hwi hwj
  rw [h1] at hfail1
  rw [h1, findPass2_cons_none hfail1]
  rw [hid, findPass2_skip_no_at (by
    intro c hc
    simp only [List.mem_append] at hc
    rcases hc with h | h | h | h | h
    · intro he
      subst he
      exact absurd h (by decide)
    · exact hnoat wj hwj c h
    · intro he
      subst he
      exact absurd h (by decide)
    · exact hnoat nj hnj c h
    · intro he
      subst he
      exact absurd h (by decide))]
  rw [← hid, findPass2_cons_none hfail2, hid,
    findPass2_skip_no_at (by decide), findPass2_skip_no_at (hnoat wj hwj),
    findPass2_skip_no_at (by decide)]

/-- Over the canonical IR, each planted identifier resolves (second
pass) to its own entry's payload. -/
theorem findPass2_mkHotIR (ps : List (List Char × List Char))
    (hw : ∀ p ∈ ps, p.1 ≠ [] ∧ ∀ c ∈ p.1, rustIsWordChar c = true)
    (hn : ∀ p ∈ ps, p.2 ≠ [] ∧ ∀ c ∈ p.2, rustIsWordChar c = true)
    (hfs : (ps.map Prod.fst).Nodup)
    {w n : List Char} (hmem : (w, n) ∈ ps) :
    findPass2 ("@alloc_".data ++ w) (mkHotIR ps) = some n := by
  induction ps with
  | nil => cases hmem
  | cons p ps ih =>
    obtain ⟨wj, nj⟩ := p
    rcases List.mem_cons.mp hmem with heq | hmem2
    · cases heq
      have hplant : mkHotIR ((w, n) :: ps)
          = ("@alloc_".data ++ w) ++ (" = c\"".data ++ (n ++ ('\\' :: '0' :: '0' :: '"' ::
            ("\nx = ptr @alloc_".data ++
              (w ++ (" section \".hot_funcs\"\n".data ++ mkHotIR ps)))))) := by
        simp [mkHotIR, hotEntry, List.append_assoc]
      rw [hplant]
      exact findPass2_eq_some_of_pass2At
        (pass2At_planted (hn (w, n) (List.mem_cons_self _ _)).1
          (hn (w, n) (List.mem_cons_self _ _)).2)
    · have hne : w ≠ wj := by
        intro he
        subst he
        rw [List.map_cons] at hfs
        exact (List.nodup_cons.mp hfs).1
          (List.mem_map.mpr ⟨(w, n), hmem2, rfl⟩)
      rw [show mkHotIR ((wj, nj) :: ps) = hotEntry wj nj ++ mkHotIR ps from rfl,
        findPass2_skip_entry hne
          (fun c hc => ((hw (w, n) hmem).2) c hc)
          ((hw (wj, nj) (List.mem_cons_self _ _)).2)
          ((hn (wj, nj) (List.mem_cons_self _ _)).2)]
      exact ih (fun q hq => hw q (List.mem_cons_of_mem _ hq))
        (fun q hq => hn q (List.mem_cons_of_mem _ hq))
        (by rw [List.map_cons] at hfs; exact (List.nodup_cons.mp hfs).2) hmem2

theorem stringMk_inj {a b : List Char} (h : String.mk a = String.mk b) : a = b :=
  congrArg String.data h

/-- The discovery fold, when every processed identifier resolves to a
distinct fresh name, appends exactly those names. -/
theorem discover_fold_exact (ir : String) (ps : List (List Char × List Char))
    (acc : List String)
    (hres : ∀ p ∈ ps, findPass2 ("@alloc_".data ++ p.1) ir.data = some p.2)
    (hnd : (ps.map (fun p => String.mk p.2)).Nodup)
    (hdisj : ∀ p ∈ ps, String.mk p.2 ∉ acc) :
    (ps.map (fun p => "@alloc_".data ++ p.1)).foldl
      (fun acc id =>
        match findPass2 id ir.data with
        | some nm => insertDedup acc (String.mk nm)
        | none => acc) acc
      = acc ++ ps.map (fun p => String.mk p.2) := by
  induction ps generalizing acc with
  | nil => simp
  | cons p ps ih =>
    rw [List.map_cons, List.foldl_cons, hres p (List.mem_cons_self _ _)]
    show (ps.map (fun p => "@alloc_".data ++ p.1)).foldl _
        (insertDedup acc (String.mk p.2)) = _
    rw [insertDedup, if_neg (hdisj p (List.mem_cons_self _ _))]
    rw [List.map_cons] at hnd
    have hnd2 := List.nodup_cons.mp hnd
    rw [ih _ (fun q hq => hres q (List.mem_cons_of_mem _ hq)) hnd2.2
      (by
        intro q hq hmem
        rcases List.mem_append.mp hmem with h | h
        · exact hdisj q (List.mem_cons_of_mem _ hq) h
        · exact hnd2.1 (List.mem_singleton.mp h ▸
            List.mem_map.mpr ⟨q, hq, (List.mem_singleton.mp h).symm ▸ rfl⟩))]
    simp

theorem insertDedup_nodup {acc : List String} {n : String} (h : acc.Nodup) :
    (insertDedup acc n).Nodup := by
  rw [insertDedup]
  split
  · exact h
  · rename_i hmem
    exact List.Nodup.append h (List.nodup_singleton n)
      (fun a ha hb => hmem (List.mem_singleton.mp hb ▸ ha))

/-- The discovered hot-function collection is duplicate-free: a set. -/
theorem find_hot_functions_nodup (ir : String) :
    (find_hot_functions_from_ir ir).Nodup := by
  rw [find_hot_functions_from_ir]
  generalize capturesIter ir.data = ids
  have : ∀ (acc : List String), acc.Nodup →
      (ids.foldl (fun acc id =>
        match findPass2 id ir.data with
        | some nm => insertDedup acc (String.mk nm)
        | none => acc) acc).Nodup := by
    induction ids with
    | nil => exact fun acc h => h
    | cons id ids ih =>
      intro acc h
      rw [List.foldl_cons]
      cases hp : findPass2 id ir.data with
      | none => exact ih acc h
      | some nm => exact ih _ (insertDedup_nodup h)
  exact this [] List.nodup_nil

/-- IR text with no `.hot_funcs` occurrence has no entries: discovery
returns the empty set (and, being a total function, never fails). -/
theorem find_hot_functions_no_section {ir : String}
    (h : listIsInfix ".hot_funcs".data ir.data = false) :
    find_hot_functions_from_ir ir = [] := by
  have hfp : findPass1 ir.data = none := by
    cases hp : findPass1 ir.data with
    | none => rfl
    | some cr =>
      obtain ⟨cap, rest⟩ := cr
      obtain ⟨⟨a, b, hab⟩, -⟩ := findPass1_some hp
      rw [listIsInfix_iff.mpr ⟨a, b, hab⟩] at h
      cases h
  rw [find_hot_functions_from_ir, capturesIter_eq, hfp]
  rfl

/-- C4: discovery behaves as a set-valued total function.  (1) The
result never contains duplicates.  (2) On IR text with zero
`.hot_funcs` entries (no occurrence of the section name) it returns
the empty set.  (3) On IR text consisting of exactly N well-formed
`.hot_funcs` entries (canonical emitted shape `mkHotIR`, identifier
words and names made of word characters, identifiers distinct,
referencing N distinct string constants), it returns exactly the N
annotated names, in particular a set of size N with no name from
outside the entries. -/
theorem discovery_exact :
    (∀ ir : String, (find_hot_functions_from_ir ir).Nodup) ∧
    (∀ ir : String, listIsInfix ".hot_funcs".data ir.data = false →
      find_hot_functions_from_ir ir = []) ∧
    (∀ ps : List (List Char × List Char),
      (∀ p ∈ ps, p.1 ≠ [] ∧ ∀ c ∈ p.1, rustIsWordChar c = true) →
      (∀ p ∈ ps, p.2 ≠ [] ∧ ∀ c ∈ p.2, rustIsWordChar c = true) →
      (ps.map Prod.fst).Nodup →
      (ps.map (fun p => String.mk p.2)).Nodup →
      find_hot_functions_from_ir (String.mk (mkHotIR ps)) =
        ps.map (fun p => String.mk p.2) ∧
      (find_hot_functions_from_ir (String.mk (mkHotIR ps))).length = ps.length) := by
  refine ⟨find_hot_functions_nodup, fun ir => find_hot_functions_no_section, ?_⟩
  intro ps hw hn hfs hsn
  have hdata : (String.mk (mkHotIR ps)).data = mkHotIR ps := rfl
  have hmain : find_hot_functions_from_ir (String.mk (mkHotIR ps)) =
      ps.map (fun p => String.mk p.2) := by
    rw [find_hot_functions_from_ir, hdata, capturesIter_mkHotIR ps hw hn]
    rw [discover_fold_exact (String.mk (mkHotIR ps)) ps []
      (fun p hp => by
        rw [hdata]
        exact findPass2_mkHotIR ps hw hn hfs hp)
      hsn (fun p hp => List.not_mem_nil _)]
    rfl
  exact ⟨hmain, by rw [hmain, List.length_map]⟩

set_option maxRecDepth 100000 in
/-- C4 witness: two well-formed entries (`idfoo` ↦ `foo`, `idbar` ↦
`bar`) yield exactly the two names; a section-free IR yields the empty
set. -/
theorem discovery_exact_witness :
    find_hot_functions_from_ir
        (String.mk (mkHotIR [("idfoo".data, "foo".data), ("idbar".data, "bar".data)]))
      = ["foo", "bar"] ∧
    (find_hot_functions_from_ir
        (String.mk (mkHotIR [("idfoo".data, "foo".data), ("idbar".data, "bar".data)]))).length
      = 2 ∧
    find_hot_functions_from_ir "define i32 @foo() \x7b ret i32 0 \x7d" = [] ∧
    (find_hot_functions_from_ir
        (String.mk (mkHotIR [("idfoo".data, "foo".data), ("idbar".data, "bar".data)]))).Nodup := by
  obtain ⟨h1, h2⟩ := discovery_exact.2.2
    [("idfoo".data, "foo".data), ("idbar".data, "bar".data)]
    (by decide) (by decide) (by decide) (by decide)
  refine ⟨?_, ?_, ?_, discovery_exact.1 _⟩
  · rw [h1]
    rfl
  · rw [h2]
    rfl
  · exact discovery_exact.2.1 _ (by decide)

end HotPath
